import Mathlib

/-!
# Verification of the CFGCYK repository (BNF → CNF conversion and CYK recognition)

Shallow embedding of `src/bnf.py` and `src/cyk.py`.

Python values that appear as grammar-symbol identities are modelled by `PyVal`
(ints, strings, and tuples; tuples are needed because
`conversion_term_product_determinalizer` passes a whole rule tuple as a single
vararg to `remove_rule`, so a 1-tuple containing a rule flows into set
membership tests).  Python dicts are modelled as insertion-ordered association
lists (`Dict`), Python sets as duplicate-free lists in insertion order
(`addElem`/`removeElem`); CPython's set iteration order is unspecified, we fix
insertion order, which matters only for the allocation order of fresh
synthetic identifiers.  Python dict/item accesses that would raise `KeyError`
on states unreachable through the embedded operations are modelled as no-ops /
default reads in the `BNF` mutators (every state we reason about contains
the accessed keys).  In the CYK engine the subscripted table is the
spec-modelled `PhraseStructure.symbols` (its file is not under `src/`), and
the spec (§4.2) states that a symbol absent from the grammar has an empty
parent set and must not raise, so those reads are total with empty defaults;
the only `none` of `fits_grammar` models the `IndexError` of the
`cyk_table[-1][0]` access visible in `cyk.py` itself, raised on the empty
table built for empty input.

The repository imports `phrase_structure.py`, which is not present under
`src/`; its `PhraseStructure` class is modelled from the spec (see
`PhraseStructure` below).
-/

set_option maxRecDepth 4000

namespace CFGCYK

/-- A Python value as used for grammar-symbol identities, rule members and
tags: integers, strings, or tuples of values. -/
inductive PyVal where
  | i : Int → PyVal
  | s : String → PyVal
  | tup : List PyVal → PyVal

mutual

/-- Decidable equality for `PyVal` (the nested `List` forces a manual
mutual definition). -/
def PyVal.decEq : (a b : PyVal) → Decidable (a = b)
  | .i a, .i b =>
    if h : a = b then .isTrue (by rw [h])
    else .isFalse (by intro hh; injection hh with hh; exact h hh)
  | .i _, .s _ => .isFalse (by intro h; exact PyVal.noConfusion h)
  | .i _, .tup _ => .isFalse (by intro h; exact PyVal.noConfusion h)
  | .s _, .i _ => .isFalse (by intro h; exact PyVal.noConfusion h)
  | .s a, .s b =>
    if h : a = b then .isTrue (by rw [h])
    else .isFalse (by intro hh; injection hh with hh; exact h hh)
  | .s _, .tup _ => .isFalse (by intro h; exact PyVal.noConfusion h)
  | .tup _, .i _ => .isFalse (by intro h; exact PyVal.noConfusion h)
  | .tup _, .s _ => .isFalse (by intro h; exact PyVal.noConfusion h)
  | .tup a, .tup b =>
    match PyVal.decEqList a b with
    | .isTrue h => .isTrue (by rw [h])
    | .isFalse h => .isFalse (by intro hh; injection hh with hh; exact h hh)

/-- Decidable equality for lists of `PyVal`. -/
def PyVal.decEqList : (a b : List PyVal) → Decidable (a = b)
  | [], [] => .isTrue rfl
  | [], _ :: _ => .isFalse (by intro h; exact List.noConfusion h)
  | _ :: _, [] => .isFalse (by intro h; exact List.noConfusion h)
  | x :: xs, y :: ys =>
    match PyVal.decEq x y, PyVal.decEqList xs ys with
    | .isTrue h1, .isTrue h2 => .isTrue (by rw [h1, h2])
    | .isFalse h1, _ => .isFalse (by intro hh; injection hh with h1' h2'; exact h1 h1')
    | _, .isFalse h2 => .isFalse (by intro hh; injection hh with h1' h2'; exact h2 h2')

end

instance : DecidableEq PyVal := PyVal.decEq

/-- A production rule: the ordered tuple of symbols produced
(`BNF_Symbol.rules` elements). -/
abbrev Rule := List PyVal

/-- Insertion-ordered association list modelling a Python `dict`. -/
abbrev Dict (α β : Type) := List (α × β)

/-- `d[k]` read. -/
def dictLookup {α β : Type} [DecidableEq α] : Dict α β → α → Option β
  | [], _ => none
  | (k, v) :: rest, key => if k = key then some v else dictLookup rest key

/-- `d[k] = v`: replace the value of an existing key in place, otherwise
append (Python dicts preserve insertion order). -/
def dictInsert {α β : Type} [DecidableEq α] : Dict α β → α → β → Dict α β
  | [], key, v => [(key, v)]
  | (k, w) :: rest, key, v =>
    if k = key then (k, v) :: rest else (k, w) :: dictInsert rest key v

/-- In-place mutation of `d[k]` (no-op when the key is missing; Python would
raise `KeyError`, which is unreachable in the states we quantify over). -/
def dictModify {α β : Type} [DecidableEq α] : Dict α β → α → (β → β) → Dict α β
  | [], _, _ => []
  | (k, w) :: rest, key, f =>
    if k = key then (k, f w) :: rest else (k, w) :: dictModify rest key f

/-- The key list of a dict, in insertion order. -/
def dictKeys {α β : Type} (d : Dict α β) : List α := d.map (·.1)

/-- The value list of a dict. -/
def dictValues {α β : Type} (d : Dict α β) : List β := d.map (·.2)

/-- Python `set.add` for sets modelled as dedup-free insertion-ordered
lists. -/
def addElem {α : Type} [DecidableEq α] (xs : List α) (x : α) : List α :=
  if x ∈ xs then xs else xs ++ [x]

/-- Python `set.remove`. -/
def removeElem {α : Type} [DecidableEq α] (xs : List α) (x : α) : List α :=
  xs.filter (fun y => y ≠ x)

/-- `BNF_Symbol` (src/bnf.py lines 11–153): a symbol's identity, rule set,
parent set and terminal flag. -/
structure BNF_Symbol where
  symbol : PyVal
  rules : List Rule
  parents : List PyVal
  is_terminal : Bool
deriving DecidableEq

/-- `BNF_Symbol.__init__`. -/
def BNF_Symbol.init (symbol : PyVal) (is_terminal : Bool) : BNF_Symbol :=
  ⟨symbol, [], [], is_terminal⟩

/-- `BNF_Symbol.add_rule(self, *produces)`: refuse on a terminal symbol
(returning -1), otherwise add the produced tuple to the rule set. -/
def BNF_Symbol.add_rule (s : BNF_Symbol) (produces : Rule) : Int × BNF_Symbol :=
  if s.is_terminal then (-1, s)
  else (0, { s with rules := addElem s.rules produces })

/-- `BNF_Symbol.remove_rule(self, *produces)`: remove the given tuple from the
rule set, returning -1 when it is not present. -/
def BNF_Symbol.remove_rule (s : BNF_Symbol) (produces : Rule) : Int × BNF_Symbol :=
  if produces ∈ s.rules then (0, { s with rules := removeElem s.rules produces })
  else (-1, s)

/-- `BNF_Symbol.remove_parent`. -/
def BNF_Symbol.remove_parent (s : BNF_Symbol) (parent : PyVal) : Int × BNF_Symbol :=
  if parent ∈ s.parents then (0, { s with parents := removeElem s.parents parent })
  else (-1, s)

/-- `BNF_Symbol.add_parent`. -/
def BNF_Symbol.add_parent (s : BNF_Symbol) (parent_symbol : PyVal) : Int × BNF_Symbol :=
  (0, { s with parents := addElem s.parents parent_symbol })

/-- The `BNF` grammar class (src/bnf.py lines 156–698). -/
structure BNF where
  start_symbol : Int
  symbols : Dict PyVal BNF_Symbol
  current_term_replacement : Int
  tags : Dict PyVal (Option PyVal)
deriving DecidableEq

/-- Tags: `None` (the root sentinel) or an arbitrary caller value. -/
abbrev Tag := Option PyVal

/-- `BNF.__init__`: start symbol `0`, a single non-terminal symbol `0`,
synthetic counter `-1`, empty tag table. -/
def BNF.init : BNF :=
  { start_symbol := 0
    symbols := [(PyVal.i 0, BNF_Symbol.init (PyVal.i 0) false)]
    current_term_replacement := -1
    tags := [] }

/-- Rules of the symbol `k` in `g` (empty when `k` is not a symbol; Python
would raise `KeyError` there). -/
def BNF.rulesOf (g : BNF) (k : PyVal) : List Rule :=
  ((dictLookup g.symbols k).map (·.rules)).getD []

/-- Parents of the symbol `k` in `g`. -/
def BNF.parentsOf (g : BNF) (k : PyVal) : List PyVal :=
  ((dictLookup g.symbols k).map (·.parents)).getD []

/-- `is_terminal` flag of the symbol `k` in `g` (false when missing; Python
would raise `KeyError` there). -/
def BNF.flagOf (g : BNF) (k : PyVal) : Bool :=
  ((dictLookup g.symbols k).map (·.is_terminal)).getD false

/-- Apply an update to the record stored under key `k`. -/
def BNF.modifySym (g : BNF) (k : PyVal) (f : BNF_Symbol → BNF_Symbol) : BNF :=
  { g with symbols := dictModify g.symbols k f }

/-- `BNF.add_symbol`: -1 when the symbol already exists, otherwise register a
fresh `BNF_Symbol`. -/
def BNF.add_symbol (g : BNF) (symbol : PyVal) (is_terminal : Bool) : Int × BNF :=
  if (dictLookup g.symbols symbol).isSome then (-1, g)
  else (0, { g with symbols := g.symbols ++ [(symbol, BNF_Symbol.init symbol is_terminal)] })

/-- `BNF.add_terminal_symbol` (the code passes `is_terminal=True`, despite the
docstring saying `False`). -/
def BNF.add_terminal_symbol (g : BNF) (symbol : PyVal) : Int × BNF :=
  g.add_symbol symbol true

/-- `BNF.add_intermediate_symbol`. -/
def BNF.add_intermediate_symbol (g : BNF) (symbol : PyVal) : Int × BNF :=
  g.add_symbol symbol false

/-- `BNF.add_rule(input_symbol, output_symbols_tuple)`: -3 for an unknown
parent, -1 for a terminal parent, -2 for an unknown member; on success stores
the rule and adds the parent back-edges. -/
def BNF.add_rule (g : BNF) (input_symbol : PyVal) (output : List PyVal) : Int × BNF :=
  match dictLookup g.symbols input_symbol with
  | none => (-3, g)
  | some rec0 =>
    if rec0.is_terminal then (-1, g)
    else if output.any (fun x => (dictLookup g.symbols x).isNone) then (-2, g)
    else
      let g1 := g.modifySym input_symbol (fun r => (r.add_rule output).2)
      let g2 := output.foldl
        (fun acc x => acc.modifySym x (fun r => (r.add_parent input_symbol).2)) g1
      (0, g2)

/-- `BNF.add_tag`. -/
def BNF.add_tag (g : BNF) (symbol : PyVal) (tag : Tag) : BNF :=
  { g with tags := dictInsert g.tags symbol tag }

/-- `BNF.does_start_occur_on_right`: whether the integer start symbol occurs
as a member of any rule of any symbol. -/
def BNF.does_start_occur_on_right (g : BNF) : Bool :=
  g.symbols.any (fun e => e.2.rules.any (fun rule => PyVal.i g.start_symbol ∈ rule))

/-- `BNF.conversion_start` (START step): when the start symbol occurs on a
right-hand side, bump the start symbol by one, declare it as an intermediate
symbol, and give it the single rule producing the previous start symbol. -/
def BNF.conversion_start (g : BNF) : BNF :=
  if g.does_start_occur_on_right then
    let g1 := { g with start_symbol := g.start_symbol + 1 }
    let g2 := (g1.add_intermediate_symbol (PyVal.i g1.start_symbol)).2
    (g2.add_rule (PyVal.i g1.start_symbol) [PyVal.i (g1.start_symbol - 1)]).2
  else g

/-- `BNF.conversion_term_replacer`: allocate the next synthetic id from the
decrementing namespace, store a fresh non-terminal `BNF_Symbol` under it
(`self.symbols[replacement_id] = BNF_Symbol(...)`, i.e. an overwriting dict
assignment), give it the single rule producing `terminal_product`, and record
the parent edge on `terminal_product`. -/
def BNF.conversion_term_replacer (g : BNF) (terminal_product : PyVal) : Int × BNF :=
  let replacement_id := g.current_term_replacement
  let g1 := { g with current_term_replacement := g.current_term_replacement - 1 }
  let g2 := { g1 with
    symbols := dictInsert g1.symbols (PyVal.i replacement_id)
      (BNF_Symbol.init (PyVal.i replacement_id) false) }
  let g3 := g2.modifySym (PyVal.i replacement_id)
    (fun r => (r.add_rule [terminal_product]).2)
  let g4 := g3.modifySym terminal_product
    (fun r => (r.add_parent (PyVal.i replacement_id)).2)
  (replacement_id, g4)

/-- `BNF.check_if_conversion_term_necessary`: a rule needs the TERM step when
it has both a terminal and a non-terminal member. -/
def BNF.check_if_conversion_term_necessary (g : BNF) (rule : Rule) : Bool :=
  rule.any (fun item => g.flagOf item) && rule.any (fun item => !g.flagOf item)

/-- The body of the replacement loop of
`conversion_term_product_determinalizer`: a terminal member triggers the
replacer (recording that something was replaced), a non-terminal is kept. -/
def BNF.conversion_term_item_step (st : Bool × BNF) (item : PyVal) : Bool × BNF :=
  if st.2.flagOf item then (true, (st.2.conversion_term_replacer item).2)
  else st

/-- `BNF.conversion_term_product_determinalizer`: for every terminal member of
`rule`, call the replacer; if anything was replaced, call
`remove_rule(rule)` on the parent.  Note the vararg slip in the source: the
call packs the whole rule tuple into a 1-tuple, so the value whose removal is
attempted is `(rule,)` — modelled as `[PyVal.tup rule]` — which is never an
element of the rule set, so the mixed rule survives. -/
def BNF.conversion_term_product_determinalizer
    (g : BNF) (parent_symbol : PyVal) (rule : Rule) : BNF :=
  let st := rule.foldl BNF.conversion_term_item_step (false, g)
  if st.1 then
    st.2.modifySym parent_symbol (fun r => (r.remove_rule [PyVal.tup rule]).2)
  else st.2

/-- The body of the per-rule loop of `conversion_term`. -/
def BNF.conversion_term_rule_step (symbol : PyVal) (acc2 : BNF) (rule : Rule) : BNF :=
  if acc2.check_if_conversion_term_necessary rule then
    acc2.conversion_term_product_determinalizer symbol rule
  else acc2

/-- The body of the per-symbol loop of `conversion_term`: snapshot the
symbol's rules and determinalize every mixed one. -/
def BNF.conversion_term_symbol_step (acc : BNF) (symbol : PyVal) : BNF :=
  (acc.rulesOf symbol).foldl (BNF.conversion_term_rule_step symbol) acc

/-- `BNF.conversion_term` (TERM step): snapshot the symbol keys, and for each
symbol snapshot its rules and determinalize every mixed rule. -/
def BNF.conversion_term (g : BNF) : BNF :=
  (dictKeys g.symbols).foldl BNF.conversion_term_symbol_step g

/-- `BNF.is_bin_applicable`: the BIN step applies to rules with more than two
members. -/
def BNF.is_bin_applicable (rule : Rule) : Bool :=
  rule.length > 2

/-- `BNF.conversion_bin_splitter`: allocate a right-branching chain of fresh
synthetic symbols for a long rule, returning the replacement triples
`(parent, member1, member2)` together with the updated grammar.  The source
allocates one id before the loop and one at the end of each iteration, so the
final allocated id is burned without being used.

The body of its chain-building loop (`conversion_bin_splitter_step` below)
declares the pending fresh id, emits the triple, advances the chain and
allocates the next id. -/
def BNF.conversion_bin_splitter_step
    (st : List (PyVal × PyVal × PyVal) × PyVal × Int × BNF) (item : PyVal) :
    List (PyVal × PyVal × PyVal) × PyVal × Int × BNF :=
  let (reps, prev, rid, gg) := st
  let gg1 := (gg.add_symbol (PyVal.i rid) false).2
  let reps1 := addElem reps (prev, item, PyVal.i rid)
  let rid1 := gg1.current_term_replacement
  let gg2 := { gg1 with current_term_replacement := gg1.current_term_replacement - 1 }
  (reps1, PyVal.i rid, rid1, gg2)

/-- `BNF.conversion_bin_splitter`: see the comment on
`conversion_bin_splitter_step` above. -/
def BNF.conversion_bin_splitter (g : BNF) (parent_symbol : PyVal) (rule : Rule) :
    List (PyVal × PyVal × PyVal) × BNF :=
  let rid0 := g.current_term_replacement
  let g0 := { g with current_term_replacement := g.current_term_replacement - 1 }
  let st := (rule.take (rule.length - 2)).foldl BNF.conversion_bin_splitter_step
    ([], parent_symbol, rid0, g0)
  let last2 := rule.drop (rule.length - 2)
  (addElem st.1 (st.2.1, last2.getD 0 (PyVal.i 0), last2.getD 1 (PyVal.i 0)), st.2.2.2)

/-- `BNF.is_only_subrule_with_daughter`: true when no rule of the parent both
contains the daughter and has more than one member. -/
def BNF.is_only_subrule_with_daughter (g : BNF) (parent daughter : PyVal) : Bool :=
  (g.rulesOf parent).all (fun rule => !(daughter ∈ rule && rule.length > 1))

/-- `BNF.conversion_bin` (BIN step): snapshot keys and rules; split each long
rule via the splitter, register the replacement binary rules with their
parent edges, remove the original rule (this call spreads the tuple, so it
really removes it), and drop parent edges that no surviving long rule
justifies — split below into `conversion_bin_apply_step` (register one
replacement triple), `conversion_bin_drop_step` (drop one orphaned parent
edge), `conversion_bin_rule_step` and `conversion_bin_symbol_step`. -/
def BNF.conversion_bin_apply_step (gg : BNF) (rep : PyVal × PyVal × PyVal) : BNF :=
  let gg1 := gg.modifySym rep.1 (fun r => (r.add_rule [rep.2.1, rep.2.2]).2)
  let gg2 := gg1.modifySym rep.2.1 (fun r => (r.add_parent rep.1).2)
  gg2.modifySym rep.2.2 (fun r => (r.add_parent rep.1).2)

/-- Dropping the parent edge of one member of a removed long rule when no
surviving rule with more than one member still produces it. -/
def BNF.conversion_bin_drop_step (symbol : PyVal) (gg : BNF) (item : PyVal) : BNF :=
  if gg.is_only_subrule_with_daughter symbol item then
    gg.modifySym item (fun r => (r.remove_parent symbol).2)
  else gg

/-- The body of the per-rule loop of `conversion_bin`. -/
def BNF.conversion_bin_rule_step (symbol : PyVal) (acc2 : BNF) (rule : Rule) : BNF :=
  if BNF.is_bin_applicable rule then
    let (reps, g1) := acc2.conversion_bin_splitter symbol rule
    let g2 := reps.foldl BNF.conversion_bin_apply_step g1
    let g3 := g2.modifySym symbol (fun r => (r.remove_rule rule).2)
    rule.foldl (BNF.conversion_bin_drop_step symbol) g3
  else acc2

/-- The body of the per-symbol loop of `conversion_bin`. -/
def BNF.conversion_bin_symbol_step (acc : BNF) (symbol : PyVal) : BNF :=
  (acc.rulesOf symbol).foldl (BNF.conversion_bin_rule_step symbol) acc

def BNF.conversion_bin (g : BNF) : BNF :=
  (dictKeys g.symbols).foldl BNF.conversion_bin_symbol_step g

/-- `BNF.conversion_del` (DEL step): a deliberate no-op, epsilon rules are out
of scope. -/
def BNF.conversion_del (g : BNF) : BNF := g

/-- The body of the per-rule loop of the first (collect-and-inline) phase of
`conversion_unit`: a unit rule whose product is a live non-terminal is
recorded and the product's current rules are inlined under the parent. -/
def BNF.conversion_unit_collect_rule_step (symbol : PyVal)
    (st2 : List (PyVal × PyVal) × BNF) (rule : Rule) : List (PyVal × PyVal) × BNF :=
  match rule with
  | [x] =>
    match dictLookup st2.2.symbols x with
    | some recx =>
      if recx.is_terminal then st2
      else
        let prods := addElem st2.1 (symbol, x)
        let g2 := recx.rules.foldl
          (fun gg subrule => gg.modifySym symbol (fun r => (r.add_rule subrule).2))
          st2.2
        (prods, g2)
    | none => st2
  | _ => st2

/-- The body of the per-symbol loop of the first phase of
`conversion_unit`. -/
def BNF.conversion_unit_collect_step (st : List (PyVal × PyVal) × BNF)
    (symbol : PyVal) : List (PyVal × PyVal) × BNF :=
  (st.2.rulesOf symbol).foldl (BNF.conversion_unit_collect_rule_step symbol) st

/-- The body of the second (removal) phase of `conversion_unit`: remove the
unit rule and drop the parent edge when no surviving rule with more than one
member still produces the product. -/
def BNF.conversion_unit_remove_step (gg : BNF) (pr : PyVal × PyVal) : BNF :=
  let gg1 := gg.modifySym pr.1 (fun r => (r.remove_rule [pr.2]).2)
  if gg1.is_only_subrule_with_daughter pr.1 pr.2 then
    gg1.modifySym pr.2 (fun r => (r.remove_parent pr.1).2)
  else gg1

/-- `BNF.conversion_unit` (UNIT step): the first pass collects every
`(parent, product)` unit pair and inlines the product's current rules under
the parent (without adding parent edges for the inlined members); the second
pass removes each unit rule and drops the parent edge when no surviving rule
with more than one member still produces the product. -/
def BNF.conversion_unit (g : BNF) : BNF :=
  let st := (dictKeys g.symbols).foldl BNF.conversion_unit_collect_step ([], g)
  st.1.foldl BNF.conversion_unit_remove_step st.2

/-- The per-rule test of `BNF.check_if_cnf`: length at most 2; a length-2
rule must have two non-terminal members, a length-1 rule a terminal member (a
length-0 rule passes unchecked). -/
def BNF.ruleIsCNF (g : BNF) (rule : Rule) : Bool :=
  match rule with
  | _ :: _ :: _ :: _ => false
  | [x, y] => !g.flagOf x && !g.flagOf y
  | [x] => g.flagOf x
  | [] => true

/-- `BNF.check_if_cnf`: every rule of every symbol passes `ruleIsCNF`. -/
def BNF.check_if_cnf (g : BNF) : Bool :=
  g.symbols.all (fun e => e.2.rules.all (fun rule => g.ruleIsCNF rule))

/-- The `while tag in self.tags.values(): tag += 1` search of
`BNF.set_unset_tags`: first integer `≥ tag` whose auto tag value is not among
`vals`.  The fuel argument bounds the loop; `vals.length + 1` always
suffices because every bump consumes a distinct member of `vals`. -/
def firstFree (vals : List Tag) : Nat → Nat → Nat
  | 0, tag => tag
  | fuel + 1, tag =>
    if (some (PyVal.i tag) : Tag) ∈ vals then firstFree vals fuel (tag + 1) else tag

/-- `BNF.reset_start_symbol_for_cnf`: force the start symbol's tag to `None`,
the root sentinel. -/
def BNF.reset_start_symbol_for_cnf (g : BNF) : BNF :=
  { g with tags := dictInsert g.tags (PyVal.i g.start_symbol) none }

/-- `BNF.set_unset_tags`: walk the symbols in order, assigning to each
untagged symbol the next integer tag not yet used as a value (the counter is
not reset between symbols), then reset the start symbol's tag.  Its
per-symbol loop body is `set_unset_step`. -/
def BNF.set_unset_step (st : Nat × Dict PyVal Tag) (symbol : PyVal) :
    Nat × Dict PyVal Tag :=
  if (dictLookup st.2 symbol).isSome then st
  else
    let t := firstFree (dictValues st.2) (st.2.length + 1) st.1
    (t, dictInsert st.2 symbol (some (PyVal.i (t : Int))))

def BNF.set_unset_tags (g : BNF) : BNF :=
  let st := (dictKeys g.symbols).foldl BNF.set_unset_step (0, g.tags)
  BNF.reset_start_symbol_for_cnf { g with tags := st.2 }

/-- A symbol record of the CNF output grammar.

Modelled from the spec: `phrase_structure.py` is not under `src/`; §2 and §3
of the spec describe the CNF Grammar as a collection of Symbol Records, each
carrying identity, terminal flag, rule set and parent set. -/
structure PhraseStructureSymbol where
  symbol : Tag
  rules : List (List Tag)
  parents : List Tag
  is_terminal : Bool
deriving DecidableEq

/-- The CNF output grammar (`PhraseStructure`).

Modelled from the spec: `phrase_structure.py` is not under `src/`; the spec
(§2, §3) describes it as a collection of Symbol Records indexed by
caller-visible tag. -/
structure PhraseStructure where
  symbols : Dict Tag PhraseStructureSymbol
deriving DecidableEq

/-- Modelled from the spec: `PhraseStructure.add_symbol` is missing with its
file; per §4.1 `declare_symbol(id, terminal) -> ok | already_exists` registers
a symbol and leaves the table unchanged when the id already exists. -/
def PhraseStructure.add_symbol (ps : PhraseStructure) (t : Tag) (is_terminal : Bool) :
    PhraseStructure :=
  if (dictLookup ps.symbols t).isSome then ps
  else ⟨ps.symbols ++ [(t, ⟨t, [], [], is_terminal⟩)]⟩

/-- Modelled from the spec: `PhraseStructure.add_terminal_rule` is missing
with its file; per §3 registering a rule `P -> (t)` stores the tuple under the
non-terminal `P` (terminal symbols may hold no rules) and records `P` in the
target's parent set. -/
def PhraseStructure.add_terminal_rule (ps : PhraseStructure) (parent target : Tag) :
    PhraseStructure :=
  match dictLookup ps.symbols parent with
  | none => ps
  | some r =>
    if r.is_terminal then ps
    else
      let s1 := dictModify ps.symbols parent
        (fun q => { q with rules := addElem q.rules [target] })
      ⟨dictModify s1 target (fun q => { q with parents := addElem q.parents parent })⟩

/-- Modelled from the spec: `PhraseStructure.add_intermediate_rule` is missing
with its file; per §3 registering a rule `P -> (t1, t2)` stores the ordered
tuple under the non-terminal `P` and records `P` in both members' parent
sets. -/
def PhraseStructure.add_intermediate_rule (ps : PhraseStructure) (parent t1 t2 : Tag) :
    PhraseStructure :=
  match dictLookup ps.symbols parent with
  | none => ps
  | some r =>
    if r.is_terminal then ps
    else
      let s1 := dictModify ps.symbols parent
        (fun q => { q with rules := addElem q.rules [t1, t2] })
      let s2 := dictModify s1 t1 (fun q => { q with parents := addElem q.parents parent })
      ⟨dictModify s2 t2 (fun q => { q with parents := addElem q.parents parent })⟩

/-- `BNF.create_phrase_structure`: assign the missing tags, declare one
output symbol per grammar symbol, then register every length-2 rule as an
intermediate rule and every length-1 rule as a terminal rule (rules of other
lengths are silently skipped).  Tag-table reads are Option-threaded: `none`
models Python's `KeyError`.  Split below into `create_ps_symbol_step`,
`create_ps_rule_step` and `create_ps_rules_step`. -/
def BNF.create_ps_symbol_step (tags : Dict PyVal Tag)
    (ps : PhraseStructure) (e : PyVal × BNF_Symbol) : Option PhraseStructure := do
  let t ← dictLookup tags e.1
  pure (ps.add_symbol t e.2.is_terminal)

/-- Registering one rule during `create_phrase_structure`: length 2 becomes
an intermediate rule, length 1 a terminal rule, anything else is skipped. -/
def BNF.create_ps_rule_step (tags : Dict PyVal Tag) (t : Tag)
    (ps2 : PhraseStructure) (rule : Rule) : Option PhraseStructure :=
  match rule with
  | [a, b] => do
    let ta ← dictLookup tags a
    let tb ← dictLookup tags b
    pure (ps2.add_intermediate_rule t ta tb)
  | [a] => do
    let ta ← dictLookup tags a
    pure (ps2.add_terminal_rule t ta)
  | _ => pure ps2

/-- Registering all rules of one symbol during `create_phrase_structure`. -/
def BNF.create_ps_rules_step (tags : Dict PyVal Tag)
    (ps : PhraseStructure) (e : PyVal × BNF_Symbol) : Option PhraseStructure := do
  let t ← dictLookup tags e.1
  e.2.rules.foldlM (BNF.create_ps_rule_step tags t) ps

def BNF.create_phrase_structure (g : BNF) : Option PhraseStructure := do
  let g1 := g.set_unset_tags
  let psA ← g1.symbols.foldlM (BNF.create_ps_symbol_step g1.tags) (⟨[]⟩ : PhraseStructure)
  g1.symbols.foldlM (BNF.create_ps_rules_step g1.tags) psA

/-- One iteration of the `convert_to_cnf` loop body:
START, TERM, BIN, DEL, UNIT in order. -/
def BNF.conversion_pass (g : BNF) : BNF :=
  ((((g.conversion_start).conversion_term).conversion_bin).conversion_del).conversion_unit

/-- `BNF.convert_to_cnf`: run conversion passes until `check_if_cnf` holds,
then materialize the `PhraseStructure`.  The source loop is unbounded; the
fuel argument counts loop iterations and `none` means the loop is still
running after that many passes (so `∀ fuel, ... = none` is non-termination). -/
def BNF.convert_to_cnf : Nat → BNF → Option PhraseStructure
  | 0, _ => none
  | fuel + 1, g =>
    if g.check_if_cnf then g.create_phrase_structure
    else BNF.convert_to_cnf fuel g.conversion_pass

/-- `k` conversion passes. -/
def BNF.passIter : Nat → BNF → BNF
  | 0, g => g
  | k + 1, g => BNF.passIter k g.conversion_pass

/-! ## The CYK engine (src/cyk.py) -/

namespace CYK

/-- `CYK.generate_cyk_table`: row `i` has `size - i` empty cells. -/
def generate_cyk_table (size : Nat) : List (List (List Tag)) :=
  (List.range size).map (fun i => (List.range (size - i)).map (fun _ => []))

/-- Read cell `(i, j)` of the table (in-range for every access the engine
makes). -/
def cellAt (tbl : List (List (List Tag))) (i j : Nat) : List Tag :=
  (tbl.getD i []).getD j []

/-- `CYK.get_cyk_pairs`: all pairs from the two cells of each split of the
substring at `(row, col)`. -/
def get_cyk_pairs (tbl : List (List (List Tag))) (row col : Nat) : List (Tag × Tag) :=
  (List.range row).foldl
    (fun pairs left_i =>
      let left_j := col
      let right_j := col + left_i + 1
      let right_i := row - left_i - 1
      (cellAt tbl left_i left_j).foldl
        (fun p2 item1 =>
          (cellAt tbl right_i right_j).foldl
            (fun p3 item2 => addElem p3 (item1, item2)) p2)
        pairs)
    []

/-- Total parent-set read of the spec-modelled symbol table.

Modelled from the spec: `phrase_structure.py` is not under `src/`, and §4.2
says a sequence symbol absent from the grammar "has an empty parent set at
that position and can never contribute to acceptance; this must not raise an
error, only fail to match" — so reads of the output table are total, with
empty defaults. -/
def symbolParents (ps : PhraseStructure) (x : Tag) : List Tag :=
  ((dictLookup ps.symbols x).map (·.parents)).getD []

/-- Total rule-set read of the spec-modelled symbol table (see
`symbolParents`). -/
def symbolRules (ps : PhraseStructure) (x : Tag) : List (List Tag) :=
  ((dictLookup ps.symbols x).map (·.rules)).getD []

/-- `CYK.get_common_parents`: intersection of the two symbols' parent
sets (empty for a symbol missing from the table, per spec §4.2). -/
def get_common_parents (ps : PhraseStructure) (item1 item2 : Tag) : List Tag :=
  (symbolParents ps item1).filter (fun x => x ∈ symbolParents ps item2)

/-- Fill one cell of a row (the body of `CYK.fill_cyk_row` for one column):
every common parent of a pair that holds the exact ordered rule is added. -/
def fill_cell (ps : PhraseStructure) (tbl : List (List (List Tag))) (row col : Nat) :
    List Tag :=
  (get_cyk_pairs tbl row col).foldl
    (fun cell pr =>
      (get_common_parents ps pr.1 pr.2).foldl
        (fun cell2 parent =>
          if [pr.1, pr.2] ∈ symbolRules ps parent then addElem cell2 parent else cell2)
        cell)
    []

/-- `CYK.fill_cyk_row`: fill every column of the given row. -/
def fill_cyk_row (ps : PhraseStructure) (tbl : List (List (List Tag))) (row : Nat) :
    List (List Tag) :=
  (List.range (tbl.getD row []).length).map (fun col => fill_cell ps tbl row col)

/-- `CYK.fits_grammar`: build the table, seed row 0 with the parent sets of
the input symbols (empty for a symbol absent from the table, per spec §4.2),
fill rows 1.. bottom-up and test whether the root sentinel `None` is in the
top cell `cyk_table[-1][0]`.  `none` models the `IndexError` of the
`cyk_table[-1][0]` access — visible in `cyk.py` itself — on the empty table
built for an empty input. -/
def fits_grammar (ps : PhraseStructure) (symbol_list : List Tag) : Option Bool :=
  let size := symbol_list.length
  let tbl0 := generate_cyk_table size
  let base := symbol_list.map (fun x => (symbolParents ps x).foldl addElem [])
  let tbl1 := if size = 0 then tbl0 else tbl0.set 0 base
  let tblN := ((List.range size).drop 1).foldl
    (fun tbl row => tbl.set row (fill_cyk_row ps tbl row)) tbl1
  match tblN.getLast? with
  | none => none
  | some lastRow =>
    match lastRow.head? with
    | none => none
    | some head => some (decide ((none : Tag) ∈ head))

end CYK

/-! ## Grammars built through the public construction calls -/

/-- The public construction surface of `BNF` named by the claims:
`add_symbol`, `add_terminal_symbol`, `add_intermediate_symbol`, `add_rule`
and `add_tag`. -/
inductive PublicOp where
  | addSymbol (symbol : PyVal) (is_terminal : Bool)
  | addTerminalSymbol (symbol : PyVal)
  | addIntermediateSymbol (symbol : PyVal)
  | addRule (input_symbol : PyVal) (output : List PyVal)
  | addTag (symbol : PyVal) (tag : Tag)
deriving DecidableEq

/-- Apply one public call (return codes discarded, as a caller that ignores
them would). -/
def applyOp (g : BNF) : PublicOp → BNF
  | .addSymbol sym t => (g.add_symbol sym t).2
  | .addTerminalSymbol sym => (g.add_terminal_symbol sym).2
  | .addIntermediateSymbol sym => (g.add_intermediate_symbol sym).2
  | .addRule p out => (g.add_rule p out).2
  | .addTag sym t => g.add_tag sym t

/-- The grammar reached from `BNF.__init__` by a sequence of public calls. -/
def buildOps (ops : List PublicOp) : BNF := ops.foldl applyOp BNF.init

/-! ## Definitions used by the claim statements -/

/-- Derivability in a `BNF` grammar: a terminal symbol derives itself, and a
non-terminal derives the concatenation of strings derived by the members of
one of its rules. -/
inductive Derives (g : BNF) : PyVal → List PyVal → Prop where
  | terminal (x : PyVal) : g.flagOf x = true → Derives g x [x]
  | applyRule (x : PyVal) (r : Rule) (ws : List (List PyVal)) :
      r ∈ g.rulesOf x → List.Forall₂ (Derives g) r ws → Derives g x ws.flatten

/-- The number of rules in the grammar that do not conform to the CNF shape —
the well-founded measure the spec says each conversion pass strictly
reduces. -/
def countNonCNF (g : BNF) : Nat :=
  (g.symbols.map (fun e => (e.2.rules.filter (fun r => !g.ruleIsCNF r)).length)).sum

/-- Whether a tag names a terminal symbol of the output grammar. -/
def tagTerminal (ps : PhraseStructure) (t : Tag) : Bool :=
  match dictLookup ps.symbols t with
  | some r => r.is_terminal
  | none => false

/-- Whether a tag names a non-terminal symbol of the output grammar. -/
def tagNonTerminal (ps : PhraseStructure) (t : Tag) : Bool :=
  match dictLookup ps.symbols t with
  | some r => !r.is_terminal
  | none => false

/-- The CNF shape of an output grammar: every rule of every symbol has arity 1
with a terminal target or arity 2 with two non-terminal targets. -/
def cnfShape (ps : PhraseStructure) : Bool :=
  ps.symbols.all (fun e => e.2.rules.all (fun rule =>
    match rule with
    | [t] => tagTerminal ps t
    | [t, u] => tagNonTerminal ps t && tagNonTerminal ps u
    | _ => false))

/-- The caller-assigned tag table maps distinct symbols to distinct values. -/
def tagsValuesInjective (tags : Dict PyVal Tag) : Prop :=
  ∀ e1 ∈ tags, ∀ e2 ∈ tags, e1.2 = e2.2 → e1.1 = e2.1

/-- No caller-assigned tag uses the root sentinel `None`. -/
def noneNotTagValue (tags : Dict PyVal Tag) : Prop :=
  ∀ e ∈ tags, e.2 ≠ none

/-- The symbol table has pairwise-distinct keys (every Python dict does). -/
def BNF.keysNodup (g : BNF) : Prop := (dictKeys g.symbols).Nodup

/-- Every member of every stored rule is itself a declared symbol. -/
def BNF.membersExist (g : BNF) : Prop :=
  ∀ e ∈ g.symbols, ∀ r ∈ e.2.rules, ∀ x ∈ r, (dictLookup g.symbols x).isSome = true

/-- A public call declares only string-valued symbol identities (the class
docstring directs callers to use strings, not integers). -/
def PublicOp.declaresOnlyStrings : PublicOp → Bool
  | .addSymbol (PyVal.s _) _ => true
  | .addSymbol _ _ => false
  | .addTerminalSymbol (PyVal.s _) => true
  | .addTerminalSymbol _ => false
  | .addIntermediateSymbol (PyVal.s _) => true
  | .addIntermediateSymbol _ => false
  | .addRule _ _ => true
  | .addTag _ _ => true

/-- Disjointness of the synthetic namespaces: the symbol keys are pairwise
distinct, and every integer key lies either in the start-symbol chain
`[0, start_symbol]` (the incrementing namespace) or strictly between the
term/bin counter and `0` (the decrementing namespace, whose next fresh id
`current_term_replacement` is therefore never a present key). -/
def intKeysDisjoint (g : BNF) : Prop :=
  (dictKeys g.symbols).Nodup ∧
  g.current_term_replacement < 0 ∧
  0 ≤ g.start_symbol ∧
  ∀ k ∈ dictKeys g.symbols,
    match k with
    | PyVal.i n => (0 ≤ n ∧ n ≤ g.start_symbol) ∨ (g.current_term_replacement < n ∧ n < 0)
    | _ => True

/-- An `add_rule` call with an empty member sequence. -/
def PublicOp.isEmptyAddRule : PublicOp → Bool
  | .addRule _ [] => true
  | _ => false

/-- No symbol of the grammar holds a rule of arity zero. -/
def noEpsilonRules (g : BNF) : Prop :=
  ∀ e ∈ g.symbols, ∀ r ∈ e.2.rules, r ≠ []

/-! ## Concrete grammars used by individual claims -/

/-- A grammar with the mixed rule `0 → ("A", "a")` (and `"A" → ("a",)`), built
through the public construction calls.  Epsilon-free, and the string `"a" "a"`
is derivable from the start symbol. -/
def mixedRuleGrammar : BNF :=
  buildOps [.addTerminalSymbol (.s "a"), .addIntermediateSymbol (.s "A"),
    .addRule (.i 0) [.s "A", .s "a"], .addRule (.s "A") [.s "a"]]

/-- A grammar already in CNF: `0 → A B`, `A → a`, `B → b`. -/
def cnfGrammar : BNF :=
  buildOps [.addIntermediateSymbol (.s "A"), .addIntermediateSymbol (.s "B"),
    .addTerminalSymbol (.s "a"), .addTerminalSymbol (.s "b"),
    .addRule (.i 0) [.s "A", .s "B"], .addRule (.s "A") [.s "a"],
    .addRule (.s "B") [.s "b"]]

/-- A grammar with the unit rule `0 → X` over `X → a`, exercising
`conversion_unit`. -/
def unitRuleGrammar : BNF :=
  buildOps [.addIntermediateSymbol (.s "X"), .addTerminalSymbol (.s "a"),
    .addRule (.i 0) [.s "X"], .addRule (.s "X") [.s "a"]]

/-- The CNF grammar of `cnfGrammar` with two symbols tagged identically: the
non-terminal `A` and the terminal `a` both carry the caller tag `"x"`. -/
def collidingTagGrammar : BNF :=
  buildOps [.addIntermediateSymbol (.s "A"), .addIntermediateSymbol (.s "B"),
    .addTerminalSymbol (.s "a"), .addTerminalSymbol (.s "b"),
    .addRule (.i 0) [.s "A", .s "B"], .addRule (.s "A") [.s "a"],
    .addRule (.s "B") [.s "b"],
    .addTag (.s "A") (some (.s "x")), .addTag (.s "a") (some (.s "x"))]

/-- A grammar whose caller declared the integer identity `-1` — the next id
of the synthetic term-replacement namespace — as a terminal symbol, together
with a mixed rule that makes `conversion_term` allocate that id. -/
def intIdentityGrammar : BNF :=
  buildOps [.addTerminalSymbol (.i (-1)), .addTerminalSymbol (.s "a"),
    .addIntermediateSymbol (.s "A"), .addRule (.i 0) [.s "A", .i (-1)],
    .addRule (.s "A") [.s "a"]]

/-- The public-call sequence registering an epsilon rule under the start
symbol. -/
def epsilonRuleOps : List PublicOp := [.addRule (.i 0) []]

/-- A public-call sequence with only non-empty `add_rule` member sequences
(for the C10 witness). -/
def nonEmptyRuleOps : List PublicOp :=
  [.addIntermediateSymbol (.s "A"), .addTerminalSymbol (.s "a"),
   .addRule (.i 0) [.s "A"], .addRule (.s "A") [.s "a"]]

/-- The invariant describing every state `convert_to_cnf` reaches from
`mixedRuleGrammar`: the extra symbols appended by the TERM step all carry a
fresh negative integer identity, the single rule producing `"a"`, and the
non-terminal flag. -/
def extraEntryOK (ctr : Int) (e : PyVal × BNF_Symbol) : Prop :=
  (∃ m : Int, e.1 = PyVal.i m ∧ ctr < m ∧ m ≤ -1) ∧
  e.2.rules = [[PyVal.s "a"]] ∧ e.2.is_terminal = false

/-- States reachable from `mixedRuleGrammar` by conversion passes: the start
symbol still holds exactly the mixed rule `("A", "a")`, `"a"` is terminal and
rule-free, `"A"` holds exactly `("a",)`, and everything else is a synthetic
term-replacement symbol holding `("a",)`. -/
def nontermInv (g : BNF) : Prop :=
  g.start_symbol = 0 ∧ g.current_term_replacement ≤ -1 ∧
  ∃ recS reca recA extra,
    g.symbols = (PyVal.i 0, recS) :: (PyVal.s "a", reca) :: (PyVal.s "A", recA) :: extra ∧
    recS.rules = [[PyVal.s "A", PyVal.s "a"]] ∧ recS.is_terminal = false ∧
    reca.rules = [] ∧ reca.is_terminal = true ∧
    recA.rules = [[PyVal.s "a"]] ∧ recA.is_terminal = false ∧
    (∀ e ∈ extra, extraEntryOK g.current_term_replacement e)

/-- Every caller-tagged symbol is a declared symbol. -/
def tagDomainDeclared (g : BNF) : Prop :=
  ∀ e ∈ g.tags, (dictLookup g.symbols e.1).isSome = true

/-- The current start symbol is a declared symbol. -/
def startDeclared (g : BNF) : Prop :=
  (dictLookup g.symbols (PyVal.i g.start_symbol)).isSome = true

/-- The CNF shape of the output grammar, as a proposition: every rule is a
1-tuple with a terminal target or a 2-tuple with two non-terminal targets. -/
def cnfShapeP (ps : PhraseStructure) : Prop :=
  ∀ e ∈ ps.symbols, ∀ r ∈ e.2.rules,
    (∃ t, r = [t] ∧ tagTerminal ps t = true) ∨
    (∃ t u, r = [t, u] ∧ tagNonTerminal ps t = true ∧ tagNonTerminal ps u = true)

/-- The frame facts carried through the conversion passes: the tag table
stays the fixed table `T`, every caller-tagged symbol stays declared, the
current start symbol is declared, and the symbol keys stay pairwise
distinct. -/
def stateWF (T : Dict PyVal Tag) (g : BNF) : Prop :=
  g.tags = T ∧
  tagDomainDeclared g ∧
  startDeclared g ∧
  (dictKeys g.symbols).Nodup

/-! ## Dictionary and fold lemmas -/

theorem dictLookup_modify_self {α β : Type} [DecidableEq α]
    (l : Dict α β) (k : α) (f : β → β) :
    dictLookup (dictModify l k f) k = (dictLookup l k).map f := by
  induction l with
  | nil => simp [dictLookup, dictModify]
  | cons e rest ih =>
    obtain ⟨k0, v0⟩ := e
    by_cases h : k0 = k
    · subst h; simp [dictLookup, dictModify]
    · simp [dictLookup, dictModify, h, ih]

theorem dictLookup_modify_ne {α β : Type} [DecidableEq α]
    (l : Dict α β) {k k' : α} (f : β → β) (h : k' ≠ k) :
    dictLookup (dictModify l k f) k' = dictLookup l k' := by
  induction l with
  | nil => simp [dictModify]
  | cons e rest ih =>
    obtain ⟨k0, v0⟩ := e
    by_cases h0 : k0 = k
    · subst h0
      simp [dictLookup, dictModify, Ne.symm h, ih]
    · by_cases h1 : k0 = k'
      · subst h1; simp [dictLookup, dictModify, h0]
      · simp [dictLookup, dictModify, h0, h1, ih]

theorem dictLookup_insert_self {α β : Type} [DecidableEq α]
    (l : Dict α β) (k : α) (v : β) :
    dictLookup (dictInsert l k v) k = some v := by
  induction l with
  | nil => simp [dictLookup, dictInsert]
  | cons e rest ih =>
    obtain ⟨k0, v0⟩ := e
    by_cases h : k0 = k
    · subst h; simp [dictLookup, dictInsert]
    · simp [dictLookup, dictInsert, h, ih]

theorem dictLookup_insert_ne {α β : Type} [DecidableEq α]
    (l : Dict α β) {k k' : α} (v : β) (h : k' ≠ k) :
    dictLookup (dictInsert l k v) k' = dictLookup l k' := by
  induction l with
  | nil => simp [dictLookup, dictInsert, Ne.symm h]
  | cons e rest ih =>
    obtain ⟨k0, v0⟩ := e
    by_cases h0 : k0 = k
    · subst h0
      simp [dictLookup, dictInsert, Ne.symm h]
    · by_cases h1 : k0 = k'
      · subst h1; simp [dictLookup, dictInsert, h0]
      · simp [dictLookup, dictInsert, h0, h1, ih]

theorem dictInsert_of_not_mem {α β : Type} [DecidableEq α]
    (l : Dict α β) {k : α} (v : β) (h : k ∉ dictKeys l) :
    dictInsert l k v = l ++ [(k, v)] := by
  induction l with
  | nil => simp [dictInsert]
  | cons e rest ih =>
    obtain ⟨k0, v0⟩ := e
    simp only [dictKeys, List.map_cons, List.mem_cons] at h
    push_neg at h
    simp [dictInsert, h.1, Ne.symm h.1, ih (by simpa [dictKeys] using h.2)]

theorem dictKeys_modify {α β : Type} [DecidableEq α]
    (l : Dict α β) (k : α) (f : β → β) :
    dictKeys (dictModify l k f) = dictKeys l := by
  induction l with
  | nil => simp [dictModify]
  | cons e rest ih =>
    obtain ⟨k0, v0⟩ := e
    by_cases h : k0 = k
    · subst h; simp [dictKeys, dictModify]
    · simp [dictKeys, dictModify, h]
      simpa [dictKeys] using ih

theorem dictKeys_insert_of_mem {α β : Type} [DecidableEq α]
    (l : Dict α β) {k : α} (v : β) (h : k ∈ dictKeys l) :
    dictKeys (dictInsert l k v) = dictKeys l := by
  induction l with
  | nil => simp [dictKeys] at h
  | cons e rest ih =>
    obtain ⟨k0, v0⟩ := e
    by_cases h0 : k0 = k
    · subst h0; simp [dictKeys, dictInsert]
    · simp only [dictKeys, List.map_cons, List.mem_cons] at h
      rcases h with h | h
      · exact absurd h.symm h0
      · simp [dictKeys, dictInsert, h0]
        simpa [dictKeys] using ih (by simpa [dictKeys] using h)

theorem dictLookup_isSome_iff {α β : Type} [DecidableEq α] (l : Dict α β) (k : α) :
    (dictLookup l k).isSome = true ↔ k ∈ dictKeys l := by
  induction l with
  | nil => simp [dictLookup, dictKeys]
  | cons e rest ih =>
    obtain ⟨k0, v0⟩ := e
    by_cases h : k0 = k
    · subst h; simp [dictLookup, dictKeys]
    · simp [dictLookup, dictKeys, h, ih, Ne.symm h]

theorem dictLookup_mem {α β : Type} [DecidableEq α]
    {l : Dict α β} {k : α} {v : β} (h : dictLookup l k = some v) : (k, v) ∈ l := by
  induction l with
  | nil => simp [dictLookup] at h
  | cons e rest ih =>
    obtain ⟨k0, v0⟩ := e
    by_cases h0 : k0 = k
    · subst h0
      rw [dictLookup, if_pos rfl] at h
      injection h with h2
      subst h2
      exact List.mem_cons_self _ _
    · rw [dictLookup, if_neg h0] at h
      exact List.mem_cons_of_mem _ (ih h)

theorem dictLookup_append {α β : Type} [DecidableEq α] (l1 l2 : Dict α β) (k : α) :
    dictLookup (l1 ++ l2) k =
      match dictLookup l1 k with
      | some v => some v
      | none => dictLookup l2 k := by
  induction l1 with
  | nil => simp [dictLookup]
  | cons e rest ih =>
    obtain ⟨k0, v0⟩ := e
    by_cases h : k0 = k
    · subst h; simp [dictLookup]
    · simp [dictLookup, h, ih]

theorem dictModify_append_fresh {α β : Type} [DecidableEq α]
    (l : Dict α β) {k : α} (v : β) (f : β → β) (h : k ∉ dictKeys l) :
    dictModify (l ++ [(k, v)]) k f = l ++ [(k, f v)] := by
  induction l with
  | nil => simp [dictModify]
  | cons e rest ih =>
    obtain ⟨k0, v0⟩ := e
    simp only [dictKeys, List.map_cons, List.mem_cons] at h
    push_neg at h
    simp only [List.cons_append, dictModify, if_neg (Ne.symm h.1), List.append_eq]
    rw [ih (by simpa [dictKeys] using h.2)]

theorem dictModify_append_left {α β : Type} [DecidableEq α]
    (l1 l2 : Dict α β) {k : α} (f : β → β) (h : k ∈ dictKeys l1) :
    dictModify (l1 ++ l2) k f = dictModify l1 k f ++ l2 := by
  induction l1 with
  | nil => simp [dictKeys] at h
  | cons e rest ih =>
    obtain ⟨k0, v0⟩ := e
    by_cases h0 : k0 = k
    · subst h0; simp [dictModify]
    · simp only [dictKeys, List.map_cons, List.mem_cons] at h
      rcases h with h | h
      · exact absurd h.symm h0
      · simp only [List.cons_append, dictModify, if_neg h0, List.append_eq]
        rw [ih (by simpa [dictKeys] using h)]

theorem foldl_preserve {α β : Type} (P : β → Prop) (f : β → α → β) (l : List α) (b : β)
    (hb : P b) (hf : ∀ s, ∀ x ∈ l, P s → P (f s x)) : P (l.foldl f b) := by
  induction l generalizing b with
  | nil => simpa using hb
  | cons x xs ih =>
    simp only [List.foldl_cons]
    exact ih (f b x) (hf b x (List.mem_cons_self _ _) hb)
      (fun s y hy hs => hf s y (List.mem_cons_of_mem _ hy) hs)

theorem foldl_fixed {α β : Type} {f : β → α → β} {b : β} {l : List α}
    (h : ∀ x ∈ l, f b x = b) : l.foldl f b = b := by
  induction l with
  | nil => rfl
  | cons x xs ih =>
    rw [List.foldl_cons, h x (List.mem_cons_self _ _)]
    exact ih (fun y hy => h y (List.mem_cons_of_mem _ hy))

/-! ## Claim theorems: error handling of the CYK engine (C7, C8) -/

/-- C7: the claim says `fits_grammar` on the empty sequence returns `false`
without raising.  In fact, for every grammar, the empty sequence builds an
empty table and `cyk_table[-1][0]` then raises an `IndexError` (modelled by
`none`); no boolean is returned. -/
theorem fits_grammar_empty_input_raises (ps : PhraseStructure) :
    CYK.fits_grammar ps [] = none := rfl

theorem getD_map_range {α : Type} (f : Nat → α) (n i : Nat) (d : α) (hi : i < n) :
    (((List.range n).map f).getD i d) = f i := by
  rw [List.getD_eq_getElem?_getD, List.getElem?_map, List.getElem?_range hi]
  rfl

theorem getD_set_self {α : Type} (l : List α) (i : Nat) (v d : α) (hi : i < l.length) :
    ((l.set i v).getD i d) = v := by
  rw [List.getD_eq_getElem?_getD, List.getElem?_set_self hi]
  rfl

theorem getD_set_ne {α : Type} (l : List α) {i j : Nat} (v d : α) (h : j ≠ i) :
    ((l.set i v).getD j d) = l.getD j d := by
  rw [List.getD_eq_getElem?_getD, List.getElem?_set_ne (Ne.symm h),
    ← List.getD_eq_getElem?_getD]

theorem generate_cyk_table_length (size : Nat) :
    (CYK.generate_cyk_table size).length = size := by
  unfold CYK.generate_cyk_table
  rw [List.length_map, List.length_range]

/-- Row `i` of the freshly generated table has `size - i` cells. -/
theorem generate_cyk_table_row (size i : Nat) (hi : i < size) :
    ((CYK.generate_cyk_table size).getD i []).length = size - i := by
  unfold CYK.generate_cyk_table
  rw [getD_map_range _ _ _ _ hi, List.length_map, List.length_range]

/-- Filling a row keeps its width. -/
theorem fill_cyk_row_length (ps : PhraseStructure) (tbl : List (List (List Tag)))
    (row : Nat) : (CYK.fill_cyk_row ps tbl row).length = (tbl.getD row []).length := by
  unfold CYK.fill_cyk_row
  rw [List.length_map, List.length_range]

/-- A table of positive size whose last row has one cell yields a last row
and a head cell. -/
theorem last_head_of_shape {tblN : List (List (List Tag))} {size : Nat}
    (hs : 0 < size) (hlen : tblN.length = size)
    (hlast : (tblN.getD (size - 1) []).length = 1) :
    ∃ lastRow hd, tblN.getLast? = some lastRow ∧ lastRow.head? = some hd := by
  have h1 : size - 1 < tblN.length := by omega
  obtain ⟨lastRow, hlr⟩ : ∃ lr, tblN[size - 1]? = some lr := by
    rw [List.getElem?_eq_getElem h1]
    exact ⟨_, rfl⟩
  have hgl : tblN.getLast? = some lastRow := by
    rw [List.getLast?_eq_getElem?, hlen]
    exact hlr
  have hlrlen : lastRow.length = 1 := by
    have h2 : tblN.getD (size - 1) [] = lastRow := by
      rw [List.getD_eq_getElem?_getD, hlr]
      rfl
    rw [← h2]
    exact hlast
  cases lastRow with
  | nil => simp at hlrlen
  | cons hd rest => exact ⟨hd :: rest, hd, hgl, rfl⟩

/-- On every non-empty input sequence, `fits_grammar` returns a boolean
(the only raise of the engine is the `cyk_table[-1][0]` access on the empty
table, per C7). -/
theorem fits_grammar_returns (ps : PhraseStructure) (symbol_list : List Tag)
    (h : 0 < symbol_list.length) :
    ∃ b, CYK.fits_grammar ps symbol_list = some b := by
  have hne : ¬(symbol_list.length = 0) := by omega
  have hP : ((((List.range symbol_list.length).drop 1).foldl
        (fun tbl row => tbl.set row (CYK.fill_cyk_row ps tbl row))
        (if symbol_list.length = 0 then CYK.generate_cyk_table symbol_list.length
         else (CYK.generate_cyk_table symbol_list.length).set 0
           (symbol_list.map (fun x => (CYK.symbolParents ps x).foldl addElem [])))).length
        = symbol_list.length) ∧
      (((((List.range symbol_list.length).drop 1).foldl
        (fun tbl row => tbl.set row (CYK.fill_cyk_row ps tbl row))
        (if symbol_list.length = 0 then CYK.generate_cyk_table symbol_list.length
         else (CYK.generate_cyk_table symbol_list.length).set 0
           (symbol_list.map (fun x => (CYK.symbolParents ps x).foldl addElem [])))).getD
        (symbol_list.length - 1) []).length = 1) := by
    refine foldl_preserve (fun tbl : List (List (List Tag)) =>
      tbl.length = symbol_list.length ∧
      ((tbl.getD (symbol_list.length - 1) []).length = 1)) _ _ _ ?_ ?_
    · rw [if_neg hne]
      constructor
      · rw [List.length_set, generate_cyk_table_length]
      · by_cases h1 : symbol_list.length - 1 = 0
        · rw [h1, getD_set_self _ _ _ _ (by rw [generate_cyk_table_length]; omega),
            List.length_map]
          omega
        · rw [getD_set_ne _ _ _ h1, generate_cyk_table_row _ _ (by omega)]
          omega
    · intro tbl row hrow htbl
      obtain ⟨hlen, hlast⟩ := htbl
      have hrowlt : row < symbol_list.length :=
        List.mem_range.mp (List.mem_of_mem_drop hrow)
      constructor
      · rw [List.length_set]
        exact hlen
      · by_cases hr : symbol_list.length - 1 = row
        · rw [hr, getD_set_self _ _ _ _ (by rw [hlen]; omega), fill_cyk_row_length,
            ← hr]
          exact hlast
        · rw [getD_set_ne _ _ _ hr]
          exact hlast
  obtain ⟨hlen, hlast⟩ := hP
  obtain ⟨lastRow, hd, hgl, hhd⟩ := last_head_of_shape h hlen hlast
  refine ⟨decide ((none : Tag) ∈ hd), ?_⟩
  have hexp : CYK.fits_grammar ps symbol_list =
      (match (((List.range symbol_list.length).drop 1).foldl
          (fun tbl row => tbl.set row (CYK.fill_cyk_row ps tbl row))
          (if symbol_list.length = 0 then CYK.generate_cyk_table symbol_list.length
           else (CYK.generate_cyk_table symbol_list.length).set 0
             (symbol_list.map
               (fun x => (CYK.symbolParents ps x).foldl addElem [])))).getLast? with
       | none => (none : Option Bool)
       | some lastRow =>
         match lastRow.head? with
         | none => none
         | some head => some (decide ((none : Tag) ∈ head))) := rfl
  rw [hexp]
  simp only [hgl, hhd]

/-- C8 confirmed: for every grammar table and every sequence containing a
symbol absent from it, `fits_grammar` does not raise: the absent symbol
contributes an empty parent set to the base row (so that position can never
contribute to acceptance) and the call returns a normal boolean.  The table
reads are modelled from the spec (the `PhraseStructure` file is not under
`src/`), whose §4.2 prescribes exactly this total empty-default
behaviour. -/
theorem fits_grammar_unknown_symbol_normal (ps : PhraseStructure)
    (symbol_list : List Tag) (x : Tag) (hx : x ∈ symbol_list)
    (habs : dictLookup ps.symbols x = none) :
    (CYK.symbolParents ps x).foldl addElem [] = [] ∧
    ∃ b, CYK.fits_grammar ps symbol_list = some b := by
  constructor
  · unfold CYK.symbolParents
    rw [habs]
    rfl
  · exact fits_grammar_returns ps symbol_list (List.length_pos_of_mem hx)

/-- Witness for C8: the CNF output of `cnfGrammar` (terminal tags `3` and
`4`) on the sequence `[3, 99]`, where `99` is absent from the table,
contributes an empty base cell at the `99` position and returns a
boolean. -/
theorem fits_grammar_unknown_symbol_normal_witness :
    (CYK.symbolParents ((BNF.convert_to_cnf 1 cnfGrammar).getD ⟨[]⟩)
        (some (PyVal.i 99))).foldl addElem [] = [] ∧
    ∃ b, CYK.fits_grammar ((BNF.convert_to_cnf 1 cnfGrammar).getD ⟨[]⟩)
        [some (PyVal.i 3), some (PyVal.i 99)] = some b :=
  fits_grammar_unknown_symbol_normal _ _ (some (PyVal.i 99))
    (by decide) (by decide)

/-! ## Claim theorems: the TERM step (C3) and parent back-edges (C4) -/

/-- C3: the claim says every mixed rule has its terminal occurrences replaced
and the original rule removed.  On `mixedRuleGrammar`, after
`conversion_term` the start symbol still holds exactly the original mixed
rule `("A", "a")` — nothing was removed (the vararg slip makes `remove_rule`
look for the 1-tuple `((A, a),)`) and no replacement rule was added; only the
orphan synthetic symbol `-1 → ("a",)` appears. -/
theorem conversion_term_leaves_mixed_rule :
    (mixedRuleGrammar.conversion_term).rulesOf (.i 0) = [[.s "A", .s "a"]] ∧
    (mixedRuleGrammar.conversion_term).rulesOf (.i (-1)) = [[.s "a"]] ∧
    mixedRuleGrammar.check_if_conversion_term_necessary [.s "A", .s "a"] = true := by
  decide

/-- C4: the claim says after every conversion step each rule member records
the rule's parent in its parent set.  `conversion_unit` on `unitRuleGrammar`
(`0 → X`, `X → a`) inlines the rule `("a",)` under the start symbol `0` but
never adds `0` to `"a"`'s parent set. -/
theorem conversion_unit_drops_parent_backedge :
    (unitRuleGrammar.conversion_unit).rulesOf (.i 0) = [[.s "a"]] ∧
    (.i 0) ∉ (unitRuleGrammar.conversion_unit).parentsOf (.s "a") := by
  decide

/-! ## Claim theorems: CNF output shape (C5 counterexample) -/

/-- C5 counterexample: with the duplicate caller tag `"x"` on the
non-terminal `A` and the terminal `a`, `convert_to_cnf` returns (the grammar
is already CNF) but the resulting `PhraseStructure` contains the arity-1 rule
`"x" → ("x",)` whose target is a non-terminal output symbol, violating the
claimed shape. -/
theorem convert_to_cnf_shape_violation_with_duplicate_tags :
    (BNF.convert_to_cnf 1 collidingTagGrammar).map cnfShape = some false := by
  decide

/-! ## Claim theorems: namespace disjointness (C6 counterexample) -/

/-- C6 counterexample: the caller may declare the integer identity `-1`
(the class docstring asks for strings but `add_symbol` accepts anything); the
TERM step then allocates the same id and overwrites the caller's record:
the declared terminal symbol `-1` becomes a non-terminal holding the rule
`(-1,)`.  Synthetic identities do collide with caller-declared ones. -/
theorem conversion_term_overwrites_caller_symbol :
    intIdentityGrammar.flagOf (.i (-1)) = true ∧
    (intIdentityGrammar.conversion_term).flagOf (.i (-1)) = false ∧
    (intIdentityGrammar.conversion_term).rulesOf (.i (-1)) = [[.i (-1)]] := by
  decide

/-! ## Claim theorems: epsilon rules (C10 counterexample) -/

/-- C10 counterexample: `add_rule` with an empty member sequence passes every
validation (`-3`/`-1`/`-2` are not triggered), returns success and registers
the arity-zero rule `()` under the start symbol. -/
theorem add_rule_empty_registers_epsilon_rule :
    (BNF.add_rule BNF.init (.i 0) []).1 = 0 ∧
    [] ∈ (buildOps epsilonRuleOps).rulesOf (.i 0) := by
  decide

/-! ## Set and record lemmas -/

theorem mem_addElem_self {α : Type} [DecidableEq α] (xs : List α) (x : α) :
    x ∈ addElem xs x := by
  by_cases h : x ∈ xs <;> simp [addElem, h]

theorem mem_addElem_of_mem {α : Type} [DecidableEq α] {xs : List α} {a : α} (b : α)
    (h : a ∈ xs) : a ∈ addElem xs b := by
  by_cases hb : b ∈ xs <;> simp [addElem, hb, h]

theorem mem_addElem_iff {α : Type} [DecidableEq α] {xs : List α} {a b : α} :
    a ∈ addElem xs b ↔ a ∈ xs ∨ a = b := by
  by_cases hb : b ∈ xs
  · simp only [addElem, if_pos hb]
    constructor
    · exact Or.inl
    · rintro (h | rfl)
      · exact h
      · exact hb
  · simp [addElem, if_neg hb]

theorem dictModify_forall {α β : Type} [DecidableEq α] (P : β → Prop)
    (l : Dict α β) (k : α) (f : β → β)
    (hl : ∀ e ∈ l, P e.2) (hf : ∀ v, P v → P (f v)) :
    ∀ e ∈ dictModify l k f, P e.2 := by
  induction l with
  | nil => simp [dictModify]
  | cons e0 rest ih =>
    obtain ⟨k0, v0⟩ := e0
    by_cases h : k0 = k
    · subst h
      simp only [dictModify, if_pos rfl]
      intro e he
      rcases List.mem_cons.mp he with rfl | he2
      · exact hf v0 (hl _ (List.mem_cons_self _ _))
      · exact hl _ (List.mem_cons_of_mem _ he2)
    · simp only [dictModify, if_neg h]
      intro e he
      rcases List.mem_cons.mp he with rfl | he2
      · exact hl _ (List.mem_cons_self _ _)
      · exact ih (fun e1 he1 => hl _ (List.mem_cons_of_mem _ he1)) e he2

/-- `add_parent` updates leave the rule list of every symbol unchanged. -/
theorem rulesOf_modify_add_parent (g : BNF) (x p k : PyVal) :
    (g.modifySym x (fun r => (r.add_parent p).2)).rulesOf k = g.rulesOf k := by
  unfold BNF.rulesOf BNF.modifySym
  by_cases h : k = x
  · subst h
    rw [dictLookup_modify_self]
    cases dictLookup g.symbols k <;> simp [BNF_Symbol.add_parent]
  · rw [dictLookup_modify_ne _ _ h]

/-- `add_parent` updates keep every existing parent edge. -/
theorem mem_parents_modify_add_parent {g : BNF} {p k : PyVal} (x q : PyVal)
    (h : p ∈ g.parentsOf k) :
    p ∈ (g.modifySym x (fun r => (r.add_parent q).2)).parentsOf k := by
  unfold BNF.parentsOf BNF.modifySym at *
  by_cases hx : k = x
  · subst hx
    rw [dictLookup_modify_self]
    cases hl : dictLookup g.symbols k with
    | none => rw [hl] at h; simp at h
    | some rec0 =>
      rw [hl] at h
      simpa [BNF_Symbol.add_parent] using mem_addElem_of_mem q (by simpa using h)
  · rw [dictLookup_modify_ne _ _ hx]
    exact h

/-- `add_parent` updates preserve the key set of the symbol table. -/
theorem isSome_modify (g : BNF) (x k : PyVal) (f : BNF_Symbol → BNF_Symbol) :
    (dictLookup (g.modifySym x f).symbols k).isSome = (dictLookup g.symbols k).isSome := by
  unfold BNF.modifySym
  by_cases h : k = x
  · subst h
    rw [dictLookup_modify_self]
    cases dictLookup g.symbols k <;> simp
  · rw [dictLookup_modify_ne _ _ h]

/-- After folding `add_parent parent` over all members, every member that is
a declared symbol records the parent edge. -/
theorem fold_add_parent_mem (output : List PyVal) (parent : PyVal) :
    ∀ (s : BNF), (∀ x ∈ output, (dictLookup s.symbols x).isSome = true) →
    ∀ x ∈ output,
      parent ∈ (output.foldl
        (fun acc y => acc.modifySym y (fun r => (r.add_parent parent).2)) s).parentsOf x := by
  induction output with
  | nil => intro s _ x hx; simp at hx
  | cons y ys ih =>
    intro s hsome x hx
    rw [List.foldl_cons]
    rcases List.mem_cons.mp hx with rfl | hxs
    · -- the edge is added at this step and preserved by the remaining steps
      have hstep : parent ∈ (s.modifySym x (fun r => (r.add_parent parent).2)).parentsOf x := by
        unfold BNF.parentsOf BNF.modifySym
        rw [dictLookup_modify_self]
        cases hl : dictLookup s.symbols x with
        | none =>
          have := hsome x (List.mem_cons_self _ _)
          rw [hl] at this; simp at this
        | some rec0 => simpa [BNF_Symbol.add_parent] using mem_addElem_self _ _
      exact foldl_preserve (fun s2 : BNF => parent ∈ s2.parentsOf x) _ ys _ hstep
        (fun s2 z _ hs2 => mem_parents_modify_add_parent z parent hs2)
    · exact ih _ (fun z hz => by
        rw [isSome_modify]
        exact hsome z (List.mem_cons_of_mem _ hz)) x hxs

/-! ## Claim theorem: `add_rule` outcome contract (C9) -/

/-- C9: `add_rule` returns the distinct explicit outcomes `-3` (unknown
parent), `-1` (terminal parent), `-2` (unknown member) and `0` (success);
every failure leaves the grammar exactly unchanged, and success registers the
rule under the parent and records the parent edge on every member. -/
theorem add_rule_explicit_outcomes (g : BNF) (parent : PyVal) (output : List PyVal) :
    ((g.add_rule parent output).1 = -3 ∨ (g.add_rule parent output).1 = -1 ∨
      (g.add_rule parent output).1 = -2 ∨ (g.add_rule parent output).1 = 0) ∧
    ((g.add_rule parent output).1 = -3 ↔ parent ∉ dictKeys g.symbols) ∧
    ((g.add_rule parent output).1 = -1 ↔
      parent ∈ dictKeys g.symbols ∧ g.flagOf parent = true) ∧
    ((g.add_rule parent output).1 = -2 ↔
      parent ∈ dictKeys g.symbols ∧ g.flagOf parent = false ∧
      ∃ x ∈ output, x ∉ dictKeys g.symbols) ∧
    ((g.add_rule parent output).1 ≠ 0 → (g.add_rule parent output).2 = g) ∧
    ((g.add_rule parent output).1 = 0 →
      output ∈ (g.add_rule parent output).2.rulesOf parent ∧
      ∀ x ∈ output, parent ∈ (g.add_rule parent output).2.parentsOf x) := by
  cases hlook : dictLookup g.symbols parent with
  | none =>
    have hmem : parent ∉ dictKeys g.symbols := by
      rw [← dictLookup_isSome_iff, hlook]; simp
    have hres : g.add_rule parent output = (-3, g) := by
      simp only [BNF.add_rule, hlook]
    have hres1 : (g.add_rule parent output).1 = -3 := by rw [hres]
    have hres2 : (g.add_rule parent output).2 = g := by rw [hres]
    rw [hres1, hres2]
    refine ⟨Or.inl rfl, ⟨fun _ => hmem, fun _ => rfl⟩, ?_, ?_, fun _ => rfl, ?_⟩
    · exact ⟨fun h => absurd h (by decide), fun hc => absurd hc.1 hmem⟩
    · exact ⟨fun h => absurd h (by decide), fun hc => absurd hc.1 hmem⟩
    · intro h; exact absurd h (by decide)
  | some rec0 =>
    have hmem : parent ∈ dictKeys g.symbols := by
      rw [← dictLookup_isSome_iff, hlook]; rfl
    have hflag : g.flagOf parent = rec0.is_terminal := by
      unfold BNF.flagOf; rw [hlook]; rfl
    by_cases hterm : rec0.is_terminal = true
    · have hres : g.add_rule parent output = (-1, g) := by
        simp only [BNF.add_rule, hlook]
        rw [if_pos hterm]
      have hres1 : (g.add_rule parent output).1 = -1 := by rw [hres]
      have hres2 : (g.add_rule parent output).2 = g := by rw [hres]
      rw [hres1, hres2]
      refine ⟨Or.inr (Or.inl rfl), ?_, ?_, ?_, fun _ => rfl, ?_⟩
      · exact ⟨fun h => absurd h (by decide), fun hc => absurd hmem hc⟩
      · exact ⟨fun _ => ⟨hmem, by rw [hflag, hterm]⟩, fun _ => rfl⟩
      · refine ⟨fun h => absurd h (by decide), fun hc => ?_⟩
        rw [hflag, hterm] at hc
        exact absurd hc.2.1 (by decide)
      · intro h; exact absurd h (by decide)
    · have hterm2 : rec0.is_terminal = false := by
        cases h2 : rec0.is_terminal
        · rfl
        · exact absurd h2 hterm
      by_cases hany : output.any (fun x => (dictLookup g.symbols x).isNone) = true
      · have hex : ∃ x ∈ output, x ∉ dictKeys g.symbols := by
          obtain ⟨x, hx, hnone⟩ := List.any_eq_true.mp hany
          refine ⟨x, hx, ?_⟩
          rw [← dictLookup_isSome_iff]
          simp only [Option.isNone_iff_eq_none] at hnone
          simp [hnone]
        have hres : g.add_rule parent output = (-2, g) := by
          simp only [BNF.add_rule, hlook]
          rw [if_neg hterm, if_pos hany]
        have hres1 : (g.add_rule parent output).1 = -2 := by rw [hres]
        have hres2 : (g.add_rule parent output).2 = g := by rw [hres]
        rw [hres1, hres2]
        refine ⟨Or.inr (Or.inr (Or.inl rfl)), ?_, ?_, ?_, fun _ => rfl, ?_⟩
        · exact ⟨fun h => absurd h (by decide), fun hc => absurd hmem hc⟩
        · refine ⟨fun h => absurd h (by decide), fun hc => ?_⟩
          rw [hflag, hterm2] at hc
          exact absurd hc.2 (by decide)
        · exact ⟨fun _ => ⟨hmem, by rw [hflag, hterm2], hex⟩, fun _ => rfl⟩
        · intro h; exact absurd h (by decide)
      · have hall : ∀ x ∈ output, (dictLookup g.symbols x).isSome = true := by
          intro x hx
          have h2 := List.any_eq_false.mp (Bool.not_eq_true _ |>.mp hany) x hx
          cases h3 : dictLookup g.symbols x
          · rw [h3] at h2; simp at h2
          · rfl
        have hnoex : ¬ ∃ x ∈ output, x ∉ dictKeys g.symbols := by
          rintro ⟨x, hx, hnk⟩
          rw [← dictLookup_isSome_iff] at hnk
          exact hnk (hall x hx)
        have hres : g.add_rule parent output =
            (0, output.foldl
              (fun acc y => acc.modifySym y (fun r => (r.add_parent parent).2))
              (g.modifySym parent (fun r => (r.add_rule output).2))) := by
          simp only [BNF.add_rule, hlook]
          rw [if_neg hterm, if_neg hany]
        have hres1 : (g.add_rule parent output).1 = 0 := by rw [hres]
        have hres2 : (g.add_rule parent output).2 = output.foldl
            (fun acc y => acc.modifySym y (fun r => (r.add_parent parent).2))
            (g.modifySym parent (fun r => (r.add_rule output).2)) := by rw [hres]
        rw [hres1, hres2]
        refine ⟨Or.inr (Or.inr (Or.inr rfl)), ?_, ?_, ?_, ?_, ?_⟩
        · exact ⟨fun h => absurd h (by decide), fun hc => absurd hmem hc⟩
        · refine ⟨fun h => absurd h (by decide), fun hc => ?_⟩
          rw [hflag, hterm2] at hc
          exact absurd hc.2 (by decide)
        · refine ⟨fun h => absurd h (by decide), fun hc => absurd hc.2.2 hnoex⟩
        · intro h; exact absurd rfl h
        · intro _
          set g1 := g.modifySym parent (fun r => (r.add_rule output).2) with hg1
          have hrules1 : g1.rulesOf parent = addElem rec0.rules output := by
            rw [hg1]
            unfold BNF.rulesOf BNF.modifySym
            rw [dictLookup_modify_self, hlook]
            simp [BNF_Symbol.add_rule, hterm2]
          have hsome1 : ∀ x ∈ output, (dictLookup g1.symbols x).isSome = true := by
            intro x hx
            rw [hg1, isSome_modify]
            exact hall x hx
          constructor
          · have heq : (output.foldl
                (fun acc y => acc.modifySym y (fun r => (r.add_parent parent).2))
                g1).rulesOf parent = g1.rulesOf parent := by
              refine foldl_preserve
                (fun s : BNF => s.rulesOf parent = g1.rulesOf parent) _ _ _ rfl ?_
              intro s z _ hs
              rw [rulesOf_modify_add_parent, hs]
            rw [heq, hrules1]
            exact mem_addElem_self _ _
          · exact fold_add_parent_mem output parent g1 hsome1

/-- Witness for C9 at a concrete input: adding `A → b` to `cnfGrammar`
succeeds, stores the rule and records the back-edge. -/
theorem add_rule_explicit_outcomes_witness :
    [(PyVal.s "b" : PyVal)] ∈
      (BNF.add_rule cnfGrammar (.s "A") [.s "b"]).2.rulesOf (.s "A") ∧
    (PyVal.s "A") ∈ (BNF.add_rule cnfGrammar (.s "A") [.s "b"]).2.parentsOf (.s "b") := by
  have h := (add_rule_explicit_outcomes cnfGrammar (.s "A") [.s "b"]).2.2.2.2.2 (by decide)
  exact ⟨h.1, h.2 _ (List.mem_cons_self _ _)⟩

/-! ## Claim theorem: no epsilon rules from non-empty calls (C10 amended) -/

/-- C10 amended: provided `add_rule` is never called with an empty member
sequence, no symbol's rule set contains an arity-zero rule after any sequence
of public operations. -/
theorem no_epsilon_rules_without_empty_add_rule (ops : List PublicOp)
    (h : ∀ op ∈ ops, op.isEmptyAddRule = false) :
    noEpsilonRules (buildOps ops) := by
  unfold buildOps
  refine foldl_preserve noEpsilonRules applyOp ops BNF.init ?_ ?_
  · intro e he r hr
    simp only [BNF.init] at he
    rcases List.mem_singleton.mp he with rfl
    simp [BNF_Symbol.init] at hr
  · intro g op hop hg
    have hne := h op hop
    cases op with
    | addSymbol sym t =>
      simp only [applyOp, BNF.add_symbol]
      by_cases hs : (dictLookup g.symbols sym).isSome = true
      · simpa [hs] using hg
      · simp only [Bool.not_eq_true] at hs
        simp only [hs, Bool.false_eq_true, if_false]
        intro e he r hr
        rcases List.mem_append.mp he with he | he
        · exact hg e he r hr
        · rcases List.mem_singleton.mp he with rfl
          simp [BNF_Symbol.init] at hr
    | addTerminalSymbol sym =>
      simp only [applyOp, BNF.add_terminal_symbol, BNF.add_symbol]
      by_cases hs : (dictLookup g.symbols sym).isSome = true
      · simpa [hs] using hg
      · simp only [Bool.not_eq_true] at hs
        simp only [hs, Bool.false_eq_true, if_false]
        intro e he r hr
        rcases List.mem_append.mp he with he | he
        · exact hg e he r hr
        · rcases List.mem_singleton.mp he with rfl
          simp [BNF_Symbol.init] at hr
    | addIntermediateSymbol sym =>
      simp only [applyOp, BNF.add_intermediate_symbol, BNF.add_symbol]
      by_cases hs : (dictLookup g.symbols sym).isSome = true
      · simpa [hs] using hg
      · simp only [Bool.not_eq_true] at hs
        simp only [hs, Bool.false_eq_true, if_false]
        intro e he r hr
        rcases List.mem_append.mp he with he | he
        · exact hg e he r hr
        · rcases List.mem_singleton.mp he with rfl
          simp [BNF_Symbol.init] at hr
    | addRule p out =>
      have hout : out ≠ [] := by
        intro hnil; subst hnil
        simp [PublicOp.isEmptyAddRule] at hne
      simp only [applyOp, BNF.add_rule]
      cases hlook : dictLookup g.symbols p with
      | none => exact hg
      | some rec0 =>
        by_cases hterm : rec0.is_terminal = true
        · simpa [hterm] using hg
        · simp only [Bool.not_eq_true] at hterm
          simp only [hterm, Bool.false_eq_true, if_false]
          by_cases hany : out.any (fun x => (dictLookup g.symbols x).isNone) = true
          · simpa [hany] using hg
          · simp only [Bool.not_eq_true] at hany
            simp only [hany, Bool.false_eq_true, if_false]
            have hg1 : noEpsilonRules (g.modifySym p (fun r => (r.add_rule out).2)) := by
              intro e he r hr
              refine dictModify_forall (fun v => ∀ r ∈ v.rules, r ≠ []) g.symbols p _
                (fun e1 he1 => hg e1 he1) ?_ e he r hr
              intro v hv r2 hr2
              unfold BNF_Symbol.add_rule at hr2
              by_cases ht : v.is_terminal = true
              · simp only [ht, if_pos rfl] at hr2
                exact hv r2 hr2
              · simp only [Bool.not_eq_true] at ht
                simp only [ht, Bool.false_eq_true, if_false] at hr2
                rcases mem_addElem_iff.mp hr2 with hin | rfl
                · exact hv r2 hin
                · exact hout
            refine foldl_preserve noEpsilonRules _ out _ hg1 ?_
            intro s x _ hs e he r hr
            refine dictModify_forall (fun v => ∀ r ∈ v.rules, r ≠ []) s.symbols x _
              (fun e1 he1 => hs e1 he1) ?_ e he r hr
            intro v hv r2 hr2
            simp only [BNF_Symbol.add_parent] at hr2
            exact hv r2 hr2
    | addTag sym t =>
      intro e he r hr
      exact hg e he r hr

/-- Witness for C10 amended on a concrete operation sequence with only
non-empty rules. -/
theorem no_epsilon_rules_without_empty_add_rule_witness :
    noEpsilonRules (buildOps nonEmptyRuleOps) :=
  no_epsilon_rules_without_empty_add_rule nonEmptyRuleOps (by decide)

/-! ## Conversion steps that do nothing -/

/-- START is the identity when the start symbol occurs in no rule. -/
theorem conversion_start_id (g : BNF)
    (h : ∀ e ∈ g.symbols, ∀ r ∈ e.2.rules, PyVal.i g.start_symbol ∉ r) :
    g.conversion_start = g := by
  have hocc : g.does_start_occur_on_right = false := by
    unfold BNF.does_start_occur_on_right
    rw [List.any_eq_false]
    intro e he
    rw [Bool.not_eq_true, List.any_eq_false]
    intro r hr
    simpa using h e he r hr
  unfold BNF.conversion_start
  rw [hocc]
  simp

/-- BIN is the identity when every rule has at most two members. -/
theorem conversion_bin_id (g : BNF)
    (h : ∀ e ∈ g.symbols, ∀ r ∈ e.2.rules, r.length ≤ 2) :
    g.conversion_bin = g := by
  unfold BNF.conversion_bin
  refine foldl_fixed ?_
  intro symbol _
  unfold BNF.conversion_bin_symbol_step
  refine foldl_fixed ?_
  intro rule hrule
  have hr2 : rule.length ≤ 2 := by
    unfold BNF.rulesOf at hrule
    cases hl : dictLookup g.symbols symbol with
    | none => rw [hl] at hrule; simp at hrule
    | some rec0 =>
      rw [hl] at hrule
      exact h _ (dictLookup_mem hl) rule (by simpa using hrule)
  unfold BNF.conversion_bin_rule_step
  rw [if_neg]
  simp only [BNF.is_bin_applicable, gt_iff_lt, decide_eq_true_eq, not_lt]
  omega

/-- UNIT is the identity when every length-1 rule produces a terminal. -/
theorem conversion_unit_id (g : BNF)
    (h : ∀ e ∈ g.symbols, ∀ r ∈ e.2.rules, ∀ x, r = [x] → g.flagOf x = true) :
    g.conversion_unit = g := by
  unfold BNF.conversion_unit
  have hfold : (dictKeys g.symbols).foldl BNF.conversion_unit_collect_step ([], g)
      = ([], g) := by
    refine foldl_fixed ?_
    intro symbol _
    unfold BNF.conversion_unit_collect_step
    refine foldl_fixed ?_
    intro rule hrule
    have hrmem : ∀ x, rule = [x] → g.flagOf x = true := by
      intro x hx
      unfold BNF.rulesOf at hrule
      cases hl : dictLookup g.symbols symbol with
      | none => rw [hl] at hrule; simp at hrule
      | some rec0 =>
        rw [hl] at hrule
        exact h _ (dictLookup_mem hl) rule (by simpa using hrule) x hx
    match rule with
    | [] => rfl
    | x :: y :: rest => rfl
    | [x] =>
      have hfx := hrmem x rfl
      unfold BNF.flagOf at hfx
      cases hl : dictLookup g.symbols x with
      | none => rw [hl] at hfx; simp at hfx
      | some recx =>
        rw [hl] at hfx
        have hfx2 : recx.is_terminal = true := by simpa using hfx
        unfold BNF.conversion_unit_collect_rule_step
        simp [hl, hfx2]
  simp only [hfold]
  rfl

/-! ## Non-termination of `convert_to_cnf` on a mixed rule -/

/-- Under `nontermInv` the CNF check fails (the mixed rule is still there). -/
theorem nontermInv_check_false {g : BNF} (h : nontermInv g) :
    g.check_if_cnf = false := by
  obtain ⟨hstart, hctr, recS, reca, recA, extra, hsym, hrS, htS, hra, hta, hrA, htA, hex⟩ := h
  have hflaga : g.flagOf (PyVal.s "a") = true := by
    unfold BNF.flagOf
    rw [hsym]
    simp [dictLookup, hta]
  have hbad : g.ruleIsCNF [PyVal.s "A", PyVal.s "a"] = false := by
    show (!g.flagOf (PyVal.s "A") && !g.flagOf (PyVal.s "a")) = false
    rw [hflaga]
    simp
  unfold BNF.check_if_cnf
  rw [hsym]
  simp only [List.all_cons, hrS]
  rw [hbad]
  simp

/-- Reduction of the item step when the member is terminal. -/
theorem conversion_term_item_step_term {st : Bool × BNF} {item : PyVal}
    (h : st.2.flagOf item = true) :
    BNF.conversion_term_item_step st item =
      (true, (st.2.conversion_term_replacer item).2) := by
  unfold BNF.conversion_term_item_step
  rw [h]
  simp

/-- Reduction of the item step when the member is non-terminal. -/
theorem conversion_term_item_step_nonterm {st : Bool × BNF} {item : PyVal}
    (h : st.2.flagOf item = false) :
    BNF.conversion_term_item_step st item = st := by
  unfold BNF.conversion_term_item_step
  rw [h]
  simp

/-- Reduction of the rule step on a mixed rule. -/
theorem conversion_term_rule_step_pos {acc2 : BNF} {rule : Rule} (symbol : PyVal)
    (h : acc2.check_if_conversion_term_necessary rule = true) :
    BNF.conversion_term_rule_step symbol acc2 rule =
      acc2.conversion_term_product_determinalizer symbol rule := by
  unfold BNF.conversion_term_rule_step
  rw [h]
  simp

/-- Reduction of the rule step on an unmixed rule. -/
theorem conversion_term_rule_step_neg {acc2 : BNF} {rule : Rule} (symbol : PyVal)
    (h : acc2.check_if_conversion_term_necessary rule = false) :
    BNF.conversion_term_rule_step symbol acc2 rule = acc2 := by
  unfold BNF.conversion_term_rule_step
  rw [h]
  simp

/-- A symbol whose rule snapshot is empty contributes nothing to TERM. -/
theorem conversion_term_symbol_step_no_rules {acc : BNF} {symbol : PyVal}
    (h : acc.rulesOf symbol = []) :
    BNF.conversion_term_symbol_step acc symbol = acc := by
  unfold BNF.conversion_term_symbol_step
  rw [h]
  rfl

/-- A symbol all of whose rules are unmixed contributes nothing to TERM. -/
theorem conversion_term_symbol_step_unmixed {acc : BNF} {symbol : PyVal}
    (h : ∀ r ∈ acc.rulesOf symbol, acc.check_if_conversion_term_necessary r = false) :
    BNF.conversion_term_symbol_step acc symbol = acc := by
  unfold BNF.conversion_term_symbol_step
  exact foldl_fixed (fun r hr => conversion_term_rule_step_neg symbol (h r hr))

/-- The TERM step preserves the non-termination invariant: the only mixed
rule, `0 → ("A", "a")`, triggers the replacer (appending one fresh synthetic
symbol and decrementing the counter) but is neither removed nor replaced. -/
theorem nontermInv_term {g : BNF} (h : nontermInv g) :
    nontermInv g.conversion_term := by
  obtain ⟨hstart, hctr, recS, reca, recA, extra, hsym, hrS, htS, hra, hta, hrA, htA, hex⟩ := h
  have hne0 : PyVal.i g.current_term_replacement ≠ PyVal.i 0 := by
    simp only [ne_eq, PyVal.i.injEq]
    omega
  have hfreshextra : ∀ e ∈ extra, e.1 ≠ PyVal.i g.current_term_replacement := by
    intro e he
    obtain ⟨⟨m, hm1, hm2, _⟩, _, _⟩ := hex e he
    rw [hm1]
    simp only [ne_eq, PyVal.i.injEq]
    omega
  have hfresh : PyVal.i g.current_term_replacement ∉ dictKeys g.symbols := by
    rw [hsym]
    simp only [dictKeys, List.map_cons, List.mem_cons]
    push_neg
    refine ⟨hne0, by simp, by simp, ?_⟩
    simp only [List.mem_map]
    rintro ⟨e, he, heq⟩
    exact hfreshextra e he heq
  have hlook0 : dictLookup g.symbols (PyVal.i 0) = some recS := by
    rw [hsym]; simp [dictLookup]
  have hlooka : dictLookup g.symbols (PyVal.s "a") = some reca := by
    rw [hsym]; simp [dictLookup]
  have hlookA : dictLookup g.symbols (PyVal.s "A") = some recA := by
    rw [hsym]; simp [dictLookup]
  have hflaga : g.flagOf (PyVal.s "a") = true := by
    unfold BNF.flagOf; rw [hlooka]; simp [hta]
  have hflagA : g.flagOf (PyVal.s "A") = false := by
    unfold BNF.flagOf; rw [hlookA]; simp [htA]
  -- the state after the replacer has run on the terminal "a"
  set reca2 : BNF_Symbol := (reca.add_parent (PyVal.i g.current_term_replacement)).2
    with hreca2
  set newrec : BNF_Symbol :=
    ⟨PyVal.i g.current_term_replacement, [[PyVal.s "a"]], [], false⟩ with hnewrec
  set g4 : BNF :=
    { start_symbol := g.start_symbol
      symbols := (PyVal.i 0, recS) :: (PyVal.s "a", reca2) :: (PyVal.s "A", recA) ::
        (extra ++ [(PyVal.i g.current_term_replacement, newrec)])
      current_term_replacement := g.current_term_replacement - 1
      tags := g.tags } with hg4
  have hmema : PyVal.s "a" ∈ dictKeys (g.symbols : Dict PyVal BNF_Symbol) := by
    rw [hsym]; simp [dictKeys]
  have hinit : ((BNF_Symbol.init (PyVal.i g.current_term_replacement) false).add_rule
      [PyVal.s "a"]).2 = newrec := by
    rw [hnewrec]
    simp [BNF_Symbol.init, BNF_Symbol.add_rule, addElem]
  have hmod : dictModify g.symbols (PyVal.s "a")
      (fun r => (r.add_parent (PyVal.i g.current_term_replacement)).2) =
      (PyVal.i 0, recS) :: (PyVal.s "a", reca2) :: (PyVal.s "A", recA) :: extra := by
    rw [hsym]
    simp [dictModify, hreca2]
  have hrepl : (g.conversion_term_replacer (PyVal.s "a")).2 = g4 := by
    unfold BNF.conversion_term_replacer
    simp only
    rw [dictInsert_of_not_mem _ _ hfresh]
    unfold BNF.modifySym
    simp only
    rw [dictModify_append_fresh _ _ _ hfresh, hinit, dictModify_append_left _ _ _ hmema,
      hmod, hg4]
    simp
  have hnec : g.check_if_conversion_term_necessary [PyVal.s "A", PyVal.s "a"] = true := by
    unfold BNF.check_if_conversion_term_necessary
    simp [hflaga, hflagA]
  have hrules0 : g.rulesOf (PyVal.i 0) = [[PyVal.s "A", PyVal.s "a"]] := by
    unfold BNF.rulesOf; rw [hlook0]; simp [hrS]
  have hnorem : (recS.remove_rule [PyVal.tup [PyVal.s "A", PyVal.s "a"]]).2 = recS := by
    unfold BNF_Symbol.remove_rule
    rw [if_neg (by rw [hrS]; decide)]
  have hdet : g.conversion_term_product_determinalizer (PyVal.i 0)
      [PyVal.s "A", PyVal.s "a"] = g4 := by
    have hfold2 : [PyVal.s "A", PyVal.s "a"].foldl BNF.conversion_term_item_step
        (false, g) = (true, g4) := by
      rw [List.foldl_cons, conversion_term_item_step_nonterm hflagA,
        List.foldl_cons, conversion_term_item_step_term hflaga, List.foldl_nil, hrepl]
    unfold BNF.conversion_term_product_determinalizer
    simp only [hfold2]
    unfold BNF.modifySym
    rw [hg4]
    simp [dictModify, hnorem]
  have hflaga4 : g4.flagOf (PyVal.s "a") = true := by
    unfold BNF.flagOf
    rw [hg4]
    simp [dictLookup, hreca2, BNF_Symbol.add_parent, hta]
  have hterm : g.conversion_term = g4 := by
    unfold BNF.conversion_term
    have hkeys : dictKeys g.symbols =
        PyVal.i 0 :: PyVal.s "a" :: PyVal.s "A" :: extra.map (·.1) := by
      rw [hsym]; rfl
    rw [hkeys]
    simp only [List.foldl_cons]
    have hs0 : BNF.conversion_term_symbol_step g (PyVal.i 0) = g4 := by
      unfold BNF.conversion_term_symbol_step
      rw [hrules0]
      simp only [List.foldl_cons, List.foldl_nil]
      rw [conversion_term_rule_step_pos _ hnec, hdet]
    rw [hs0]
    have hs1 : BNF.conversion_term_symbol_step g4 (PyVal.s "a") = g4 := by
      apply conversion_term_symbol_step_no_rules
      unfold BNF.rulesOf
      rw [hg4]
      simp [dictLookup, hreca2, BNF_Symbol.add_parent, hra]
    rw [hs1]
    have hs2 : BNF.conversion_term_symbol_step g4 (PyVal.s "A") = g4 := by
      apply conversion_term_symbol_step_unmixed
      intro r hr
      have hr4 : g4.rulesOf (PyVal.s "A") = [[PyVal.s "a"]] := by
        unfold BNF.rulesOf
        rw [hg4]
        simp [dictLookup, hrA]
      rw [hr4] at hr
      rcases List.mem_singleton.mp hr with rfl
      unfold BNF.check_if_conversion_term_necessary
      simp [hflaga4]
    rw [hs2]
    refine foldl_fixed ?_
    intro k hk
    obtain ⟨e, he, hke⟩ := List.mem_map.mp hk
    obtain ⟨⟨m, hm1, hm2, hm3⟩, _, _⟩ := hex e he
    have hkne0 : ¬ (PyVal.i 0 = k) := by
      rw [← hke, hm1]
      simp only [PyVal.i.injEq]
      omega
    have hknea : ¬ (PyVal.s "a" = k) := by
      rw [← hke, hm1]; simp
    have hkneA : ¬ (PyVal.s "A" = k) := by
      rw [← hke, hm1]; simp
    have hkmem : k ∈ dictKeys (extra : Dict PyVal BNF_Symbol) := by
      rw [← hke]
      exact List.mem_map_of_mem _ he
    obtain ⟨v, hv⟩ := Option.isSome_iff_exists.mp
      ((dictLookup_isSome_iff extra k).mpr hkmem)
    have hventry := dictLookup_mem hv
    obtain ⟨_, hvrules, _⟩ := hex (k, v) hventry
    have hlookk : dictLookup g4.symbols k = some v := by
      rw [hg4]
      show dictLookup ((PyVal.i 0, recS) :: (PyVal.s "a", reca2) :: (PyVal.s "A", recA) ::
        (extra ++ [(PyVal.i g.current_term_replacement, newrec)])) k = some v
      simp only [dictLookup, if_neg hkne0, if_neg hknea, if_neg hkneA]
      rw [dictLookup_append, hv]
    apply conversion_term_symbol_step_unmixed
    intro r hr
    have hrk : g4.rulesOf k = [[PyVal.s "a"]] := by
      unfold BNF.rulesOf
      rw [hlookk]
      simpa using hvrules
    rw [hrk] at hr
    rcases List.mem_singleton.mp hr with rfl
    unfold BNF.check_if_conversion_term_necessary
    simp [hflaga4]
  rw [hterm]
  refine ⟨by rw [hg4]; exact hstart, by rw [hg4]; simp; omega,
    recS, reca2, recA, extra ++ [(PyVal.i g.current_term_replacement, newrec)],
    by rw [hg4], hrS, htS,
    by simp [hreca2, BNF_Symbol.add_parent, hra],
    by simp [hreca2, BNF_Symbol.add_parent, hta],
    hrA, htA, ?_⟩
  intro e he
  rcases List.mem_append.mp he with he2 | he2
  · obtain ⟨⟨m, hm1, hm2, hm3⟩, h2, h3⟩ := hex e he2
    refine ⟨⟨m, hm1, ?_, hm3⟩, h2, h3⟩
    rw [hg4]
    simp
    omega
  · rcases List.mem_singleton.mp he2 with rfl
    refine ⟨⟨g.current_term_replacement, rfl, ?_, hctr⟩, by rw [hnewrec], by rw [hnewrec]⟩
    rw [hg4]
    simp

/-- Every rule of an invariant state is the mixed rule or the unit terminal
rule. -/
theorem nontermInv_rules {g : BNF} (h : nontermInv g) :
    ∀ e ∈ g.symbols, ∀ r ∈ e.2.rules,
      r = [PyVal.s "A", PyVal.s "a"] ∨ r = [PyVal.s "a"] := by
  obtain ⟨_, _, recS, reca, recA, extra, hsym, hrS, _, hra, _, hrA, _, hex⟩ := h
  intro e he r hr
  rw [hsym] at he
  rcases List.mem_cons.mp he with rfl | he
  · rw [hrS] at hr
    exact Or.inl (List.mem_singleton.mp hr)
  rcases List.mem_cons.mp he with rfl | he
  · rw [hra] at hr
    simp at hr
  rcases List.mem_cons.mp he with rfl | he
  · rw [hrA] at hr
    exact Or.inr (List.mem_singleton.mp hr)
  · obtain ⟨_, h2, _⟩ := hex e he
    rw [h2] at hr
    exact Or.inr (List.mem_singleton.mp hr)

/-- The terminal flag of `"a"` under the invariant. -/
theorem nontermInv_flaga {g : BNF} (h : nontermInv g) :
    g.flagOf (PyVal.s "a") = true := by
  obtain ⟨_, _, recS, reca, recA, extra, hsym, _, _, _, hta, _, _, _⟩ := h
  unfold BNF.flagOf
  rw [hsym]
  simp [dictLookup, hta]

/-- A full conversion pass preserves the invariant: START, BIN and UNIT do
nothing on invariant states and TERM only piles up synthetic symbols. -/
theorem nontermInv_pass {g : BNF} (h : nontermInv g) :
    nontermInv g.conversion_pass := by
  have hstart0 : g.start_symbol = 0 := h.1
  have hstart_id : g.conversion_start = g := by
    apply conversion_start_id
    intro e he r hr
    rw [hstart0]
    rcases nontermInv_rules h e he r hr with rfl | rfl <;> decide
  have h2 := nontermInv_term h
  have hbin_id : (g.conversion_term).conversion_bin = g.conversion_term := by
    apply conversion_bin_id
    intro e he r hr
    rcases nontermInv_rules h2 e he r hr with rfl | rfl <;> decide
  have hunit_id : (g.conversion_term).conversion_unit = g.conversion_term := by
    apply conversion_unit_id
    intro e he r hr x hx
    rcases nontermInv_rules h2 e he r hr with rfl | rfl
    · simp at hx
    · simp only [List.cons.injEq, and_true] at hx
      rw [← hx]
      exact nontermInv_flaga h2
  unfold BNF.conversion_pass BNF.conversion_del
  rw [hstart_id, hbin_id, hunit_id]
  exact h2

/-- On invariant states the conversion loop never exits: `convert_to_cnf`
returns `none` for every fuel. -/
theorem nontermInv_loop_none :
    ∀ (fuel : Nat) (g : BNF), nontermInv g → BNF.convert_to_cnf fuel g = none := by
  intro fuel
  induction fuel with
  | zero => intro g _; rfl
  | succ n ih =>
    intro g h
    unfold BNF.convert_to_cnf
    rw [nontermInv_check_false h]
    exact ih _ (nontermInv_pass h)

/-- The invariant holds for the concrete mixed-rule grammar. -/
theorem nontermInv_mixed : nontermInv mixedRuleGrammar := by
  exact ⟨rfl, by decide, _, _, _, [], rfl, rfl, rfl, rfl, rfl, rfl, rfl, by simp⟩

/-! ## Claim theorems: the conversion loop (C1, C2) -/

/-- C1: the claim says that for every grammar built through the public calls,
`fits_grammar` on the `PhraseStructure` returned by `convert_to_cnf` decides
derivability.  On `mixedRuleGrammar` — an epsilon-free grammar with the
derivable string `"a" "a"` — `convert_to_cnf` never returns at all: every
pass leaves the mixed rule `0 → ("A", "a")` in place (the TERM step's
`remove_rule(rule)` vararg slip), so `check_if_cnf` stays false forever and
no `PhraseStructure` is ever produced on which `fits_grammar` could decide
anything. -/
theorem convert_to_cnf_never_returns_on_mixed_rule :
    (∀ fuel, BNF.convert_to_cnf fuel mixedRuleGrammar = none) ∧
    Derives mixedRuleGrammar (PyVal.i 0) [PyVal.s "a", PyVal.s "a"] := by
  constructor
  · intro fuel
    exact nontermInv_loop_none fuel _ nontermInv_mixed
  · have hA : Derives mixedRuleGrammar (PyVal.s "A") [PyVal.s "a"] := by
      have h2 : Derives mixedRuleGrammar (PyVal.s "A") [[PyVal.s "a"]].flatten :=
        Derives.applyRule _ [PyVal.s "a"] [[PyVal.s "a"]] (by decide)
          (List.Forall₂.cons (Derives.terminal _ (by decide)) List.Forall₂.nil)
      simpa using h2
    have ha : Derives mixedRuleGrammar (PyVal.s "a") [PyVal.s "a"] :=
      Derives.terminal _ (by decide)
    have h3 : Derives mixedRuleGrammar (PyVal.i 0)
        [[PyVal.s "a"], [PyVal.s "a"]].flatten :=
      Derives.applyRule _ [PyVal.s "A", PyVal.s "a"] [[PyVal.s "a"], [PyVal.s "a"]]
        (by decide) (List.Forall₂.cons hA (List.Forall₂.cons ha List.Forall₂.nil))
    simpa using h3

/-- C2: the claim says each full pass strictly reduces the number of
non-conforming rules, so the loop terminates.  On `mixedRuleGrammar` the
count is unchanged by a pass (the single mixed rule survives), the grammar
is not CNF, and the loop runs forever (every fuel yields `none`). -/
theorem conversion_pass_does_not_reduce_nonconforming :
    countNonCNF (mixedRuleGrammar.conversion_pass) = countNonCNF mixedRuleGrammar ∧
    mixedRuleGrammar.check_if_cnf = false ∧
    (∀ fuel, BNF.convert_to_cnf fuel mixedRuleGrammar.conversion_pass = none) := by
  refine ⟨by decide, by decide, ?_⟩
  intro fuel
  exact nontermInv_loop_none fuel _ (nontermInv_pass nontermInv_mixed)

/-! ## Namespace disjointness (C6 amended): preservation lemmas -/

/-- States agreeing on keys, counter and start symbol share the
disjointness invariant. -/
theorem intKeysDisjoint_of_eq {g g' : BNF} (h : intKeysDisjoint g)
    (hk : dictKeys g'.symbols = dictKeys g.symbols)
    (hc : g'.current_term_replacement = g.current_term_replacement)
    (hs : g'.start_symbol = g.start_symbol) : intKeysDisjoint g' := by
  obtain ⟨h1, h2, h3, h4⟩ := h
  exact ⟨hk ▸ h1, hc ▸ h2, hs ▸ h3, fun k hkm => hc ▸ hs ▸ h4 k (hk ▸ hkm)⟩

theorem intKeysDisjoint_modifySym {g : BNF} (k : PyVal) (f : BNF_Symbol → BNF_Symbol)
    (h : intKeysDisjoint g) : intKeysDisjoint (g.modifySym k f) :=
  intKeysDisjoint_of_eq h (by unfold BNF.modifySym; exact dictKeys_modify _ _ _) rfl rfl

/-- Decrementing the synthetic counter preserves the invariant. -/
theorem intKeysDisjoint_ctr_dec {g : BNF} (h : intKeysDisjoint g) :
    intKeysDisjoint { g with current_term_replacement := g.current_term_replacement - 1 } := by
  obtain ⟨h1, h2, h3, h4⟩ := h
  refine ⟨h1, by show g.current_term_replacement - 1 < 0; omega, h3, ?_⟩
  intro k hk
  have := h4 k hk
  match k with
  | PyVal.i n =>
    rcases this with hl | hr
    · exact Or.inl hl
    · refine Or.inr ⟨?_, hr.2⟩
      show g.current_term_replacement - 1 < n
      omega
  | PyVal.s _ => trivial
  | PyVal.tup _ => trivial

/-- Declaring a string symbol preserves the invariant. -/
theorem intKeysDisjoint_add_symbol_str {g : BNF} (str : String) (b : Bool)
    (h : intKeysDisjoint g) : intKeysDisjoint ((g.add_symbol (PyVal.s str) b).2) := by
  obtain ⟨h1, h2, h3, h4⟩ := h
  unfold BNF.add_symbol
  by_cases hp : (dictLookup g.symbols (PyVal.s str)).isSome = true
  · simpa [hp] using ⟨h1, h2, h3, h4⟩
  · simp only [Bool.not_eq_true] at hp
    simp only [hp, Bool.false_eq_true, if_false]
    refine ⟨?_, h2, h3, ?_⟩
    · simp only [dictKeys, List.map_append]
      rw [List.nodup_append]
      refine ⟨h1, List.nodup_singleton _, ?_⟩
      intro x hx hx2
      simp only [List.map_cons, List.map_nil, List.mem_singleton] at hx2
      subst hx2
      have hx3 := (dictLookup_isSome_iff g.symbols _).mpr hx
      rw [hp] at hx3
      simp at hx3
    · intro k hk
      simp only [dictKeys, List.map_append, List.mem_append] at hk
      rcases hk with hk | hk
      · exact h4 k hk
      · simp only [List.map_cons, List.map_nil, List.mem_singleton] at hk
        subst hk
        trivial

/-- Declaring a negative integer symbol above the counter preserves the
invariant (the BIN chain ids). -/
theorem intKeysDisjoint_add_symbol_negint {g : BNF} {n : Int} (b : Bool)
    (hneg : n < 0) (hgt : g.current_term_replacement < n)
    (h : intKeysDisjoint g) : intKeysDisjoint ((g.add_symbol (PyVal.i n) b).2) := by
  obtain ⟨h1, h2, h3, h4⟩ := h
  unfold BNF.add_symbol
  by_cases hp : (dictLookup g.symbols (PyVal.i n)).isSome = true
  · simpa [hp] using ⟨h1, h2, h3, h4⟩
  · simp only [Bool.not_eq_true] at hp
    simp only [hp, Bool.false_eq_true, if_false]
    refine ⟨?_, h2, h3, ?_⟩
    · simp only [dictKeys, List.map_append]
      rw [List.nodup_append]
      refine ⟨h1, List.nodup_singleton _, ?_⟩
      intro x hx hx2
      simp only [List.map_cons, List.map_nil, List.mem_singleton] at hx2
      subst hx2
      have hx3 := (dictLookup_isSome_iff g.symbols _).mpr hx
      rw [hp] at hx3
      simp at hx3
    · intro k hk
      simp only [dictKeys, List.map_append, List.mem_append] at hk
      rcases hk with hk | hk
      · exact h4 k hk
      · simp only [List.map_cons, List.map_nil, List.mem_singleton] at hk
        subst hk
        exact Or.inr ⟨hgt, hneg⟩

/-- Declaring the (bumped) start symbol preserves the invariant. -/
theorem intKeysDisjoint_add_symbol_start {g : BNF} (b : Bool)
    (h : intKeysDisjoint g) : intKeysDisjoint ((g.add_symbol (PyVal.i g.start_symbol) b).2) := by
  obtain ⟨h1, h2, h3, h4⟩ := h
  unfold BNF.add_symbol
  by_cases hp : (dictLookup g.symbols (PyVal.i g.start_symbol)).isSome = true
  · simpa [hp] using ⟨h1, h2, h3, h4⟩
  · simp only [Bool.not_eq_true] at hp
    simp only [hp, Bool.false_eq_true, if_false]
    refine ⟨?_, h2, h3, ?_⟩
    · simp only [dictKeys, List.map_append]
      rw [List.nodup_append]
      refine ⟨h1, List.nodup_singleton _, ?_⟩
      intro x hx hx2
      simp only [List.map_cons, List.map_nil, List.mem_singleton] at hx2
      subst hx2
      have hx3 := (dictLookup_isSome_iff g.symbols _).mpr hx
      rw [hp] at hx3
      simp at hx3
    · intro k hk
      simp only [dictKeys, List.map_append, List.mem_append] at hk
      rcases hk with hk | hk
      · exact h4 k hk
      · simp only [List.map_cons, List.map_nil, List.mem_singleton] at hk
        subst hk
        exact Or.inl ⟨h3, le_refl _⟩

/-- `add_rule` (any outcome) preserves the invariant. -/
theorem intKeysDisjoint_add_rule {g : BNF} (p : PyVal) (out : List PyVal)
    (h : intKeysDisjoint g) : intKeysDisjoint ((g.add_rule p out).2) := by
  unfold BNF.add_rule
  cases dictLookup g.symbols p with
  | none => exact h
  | some rec0 =>
    by_cases hterm : rec0.is_terminal = true
    · simpa [hterm] using h
    · simp only [Bool.not_eq_true] at hterm
      simp only [hterm, Bool.false_eq_true, if_false]
      by_cases hany : (out.any fun x => (dictLookup g.symbols x).isNone) = true
      · simpa [hany] using h
      · simp only [Bool.not_eq_true] at hany
        simp only [hany, Bool.false_eq_true, if_false]
        refine foldl_preserve intKeysDisjoint _ out _ ?_ ?_
        · exact intKeysDisjoint_modifySym _ _ h
        · intro s x _ hs
          exact intKeysDisjoint_modifySym _ _ hs

/-- The replacer allocates a fresh id below every present key and preserves
the invariant. -/
theorem intKeysDisjoint_replacer {g : BNF} (t : PyVal)
    (h : intKeysDisjoint g) : intKeysDisjoint ((g.conversion_term_replacer t).2) := by
  obtain ⟨h1, h2, h3, h4⟩ := h
  have hfresh : PyVal.i g.current_term_replacement ∉ dictKeys g.symbols := by
    intro hmem
    have := h4 _ hmem
    rcases this with ⟨hn1, _⟩ | ⟨hn2, _⟩
    · omega
    · omega
  unfold BNF.conversion_term_replacer
  simp only
  rw [dictInsert_of_not_mem _ _ hfresh]
  refine intKeysDisjoint_modifySym _ _ (intKeysDisjoint_modifySym _ _ ?_)
  refine ⟨?_, by show g.current_term_replacement - 1 < 0; omega, h3, ?_⟩
  · simp only [dictKeys, List.map_append]
    rw [List.nodup_append]
    refine ⟨h1, List.nodup_singleton _, ?_⟩
    intro x hx hx2
    simp only [List.map_cons, List.map_nil, List.mem_singleton] at hx2
    subst hx2
    exact hfresh hx
  · intro k hk
    simp only [dictKeys, List.map_append, List.mem_append] at hk
    rcases hk with hk | hk
    · have := h4 k hk
      match k with
      | PyVal.i n =>
        rcases this with hl | hr
        · exact Or.inl hl
        · refine Or.inr ⟨?_, hr.2⟩
          show g.current_term_replacement - 1 < n
          omega
      | PyVal.s _ => trivial
      | PyVal.tup _ => trivial
    · simp only [List.map_cons, List.map_nil, List.mem_singleton] at hk
      subst hk
      refine Or.inr ⟨?_, h2⟩
      show g.current_term_replacement - 1 < g.current_term_replacement
      omega

/-- TERM preserves the invariant. -/
theorem intKeysDisjoint_term {g : BNF} (h : intKeysDisjoint g) :
    intKeysDisjoint g.conversion_term := by
  unfold BNF.conversion_term
  refine foldl_preserve intKeysDisjoint _ _ _ h ?_
  intro s symbol _ hs
  unfold BNF.conversion_term_symbol_step
  refine foldl_preserve intKeysDisjoint _ _ _ hs ?_
  intro s2 rule _ hs2
  unfold BNF.conversion_term_rule_step
  by_cases hnec : s2.check_if_conversion_term_necessary rule = true
  · simp only [hnec, if_true]
    unfold BNF.conversion_term_product_determinalizer
    have hst : intKeysDisjoint (rule.foldl BNF.conversion_term_item_step (false, s2)).2 := by
      refine foldl_preserve (fun st : Bool × BNF => intKeysDisjoint st.2) _ _ _ hs2 ?_
      intro st item _ hstI
      unfold BNF.conversion_term_item_step
      by_cases hfl : st.2.flagOf item = true
      · simp only [hfl, if_true]
        exact intKeysDisjoint_replacer _ hstI
      · simp only [Bool.not_eq_true] at hfl
        simp only [hfl, Bool.false_eq_true, if_false]
        exact hstI
    by_cases hrep : (rule.foldl BNF.conversion_term_item_step (false, s2)).1 = true
    · simp only [hrep, if_true]
      exact intKeysDisjoint_modifySym _ _ hst
    · simp only [Bool.not_eq_true] at hrep
      simp only [hrep, Bool.false_eq_true, if_false]
      exact hst
  · simp only [Bool.not_eq_true] at hnec
    simp only [hnec, Bool.false_eq_true, if_false]
    exact hs2

/-- The BIN splitter preserves the invariant. -/
theorem intKeysDisjoint_splitter {g : BNF} (p : PyVal) (rule : Rule)
    (h : intKeysDisjoint g) : intKeysDisjoint ((g.conversion_bin_splitter p rule).2) := by
  unfold BNF.conversion_bin_splitter
  simp only
  have hP : ∀ (l : List PyVal)
      (st : List (PyVal × PyVal × PyVal) × PyVal × Int × BNF),
      (intKeysDisjoint st.2.2.2 ∧ st.2.2.2.current_term_replacement < st.2.2.1 ∧
        st.2.2.1 < 0) →
      intKeysDisjoint (l.foldl BNF.conversion_bin_splitter_step st).2.2.2 ∧
        (l.foldl BNF.conversion_bin_splitter_step st).2.2.2.current_term_replacement <
          (l.foldl BNF.conversion_bin_splitter_step st).2.2.1 ∧
        (l.foldl BNF.conversion_bin_splitter_step st).2.2.1 < 0 := by
    intro l
    induction l with
    | nil => intro st hst; simpa using hst
    | cons x xs ih =>
      intro st hst
      obtain ⟨hI, hlt, hneg⟩ := hst
      rw [List.foldl_cons]
      refine ih _ ?_
      obtain ⟨reps, prev, rid, gg⟩ := st
      unfold BNF.conversion_bin_splitter_step
      simp only at hI hlt hneg ⊢
      have hI1 : intKeysDisjoint ((gg.add_symbol (PyVal.i rid) false).2) :=
        intKeysDisjoint_add_symbol_negint false hneg hlt hI
      have hctr1 : ((gg.add_symbol (PyVal.i rid) false).2).current_term_replacement =
          gg.current_term_replacement := by
        unfold BNF.add_symbol
        by_cases hp : (dictLookup gg.symbols (PyVal.i rid)).isSome = true
        · simp [hp]
        · simp only [Bool.not_eq_true] at hp
          simp [hp]
      refine ⟨intKeysDisjoint_ctr_dec hI1, by simp, ?_⟩
      rw [hctr1]
      exact hI.2.1
  have hbase : intKeysDisjoint
      ({ g with current_term_replacement := g.current_term_replacement - 1 } : BNF) ∧
      ({ g with current_term_replacement := g.current_term_replacement - 1 } :
        BNF).current_term_replacement < g.current_term_replacement ∧
      g.current_term_replacement < 0 := by
    exact ⟨intKeysDisjoint_ctr_dec h, by simp, h.2.1⟩
  exact (hP _ _ hbase).1

/-- BIN preserves the invariant. -/
theorem intKeysDisjoint_bin {g : BNF} (h : intKeysDisjoint g) :
    intKeysDisjoint g.conversion_bin := by
  unfold BNF.conversion_bin
  refine foldl_preserve intKeysDisjoint _ _ _ h ?_
  intro s symbol _ hs
  unfold BNF.conversion_bin_symbol_step
  refine foldl_preserve intKeysDisjoint _ _ _ hs ?_
  intro s2 rule _ hs2
  unfold BNF.conversion_bin_rule_step
  by_cases happ : BNF.is_bin_applicable rule = true
  · simp only [happ, if_true]
    have h1 := intKeysDisjoint_splitter symbol rule hs2
    have h2 : intKeysDisjoint
        (((s2.conversion_bin_splitter symbol rule).1).foldl BNF.conversion_bin_apply_step
          ((s2.conversion_bin_splitter symbol rule).2)) := by
      refine foldl_preserve intKeysDisjoint _ _ _ h1 ?_
      intro s3 rep _ hs3
      unfold BNF.conversion_bin_apply_step
      exact intKeysDisjoint_modifySym _ _
        (intKeysDisjoint_modifySym _ _ (intKeysDisjoint_modifySym _ _ hs3))
    refine foldl_preserve intKeysDisjoint _ _ _
      (intKeysDisjoint_modifySym _ _ h2) ?_
    intro s3 item _ hs3
    unfold BNF.conversion_bin_drop_step
    by_cases hd : s3.is_only_subrule_with_daughter symbol item = true
    · simp only [hd, if_true]
      exact intKeysDisjoint_modifySym _ _ hs3
    · simp only [Bool.not_eq_true] at hd
      simp only [hd, Bool.false_eq_true, if_false]
      exact hs3
  · simp only [Bool.not_eq_true] at happ
    simp only [happ, Bool.false_eq_true, if_false]
    exact hs2

/-- UNIT preserves the invariant. -/
theorem intKeysDisjoint_unit {g : BNF} (h : intKeysDisjoint g) :
    intKeysDisjoint g.conversion_unit := by
  unfold BNF.conversion_unit
  have hst : intKeysDisjoint
      ((dictKeys g.symbols).foldl BNF.conversion_unit_collect_step ([], g)).2 := by
    refine foldl_preserve (fun st : List (PyVal × PyVal) × BNF => intKeysDisjoint st.2)
      _ _ _ h ?_
    intro st symbol _ hstI
    unfold BNF.conversion_unit_collect_step
    refine foldl_preserve (fun st : List (PyVal × PyVal) × BNF => intKeysDisjoint st.2)
      _ _ _ hstI ?_
    intro st2 rule _ hst2
    unfold BNF.conversion_unit_collect_rule_step
    split
    · split
      · split
        · exact hst2
        · refine foldl_preserve (fun gg : BNF => intKeysDisjoint gg) _ _ _ hst2 ?_
          intro gg subrule _ hgg
          exact intKeysDisjoint_modifySym _ _ hgg
      · exact hst2
    · exact hst2
  refine foldl_preserve intKeysDisjoint _ _ _ hst ?_
  intro gg pr _ hgg
  unfold BNF.conversion_unit_remove_step
  simp only
  by_cases hd : (gg.modifySym pr.1 fun r =>
      (r.remove_rule [pr.2]).2).is_only_subrule_with_daughter pr.1 pr.2 = true
  · simp only [hd, if_true]
    exact intKeysDisjoint_modifySym _ _ (intKeysDisjoint_modifySym _ _ hgg)
  · simp only [Bool.not_eq_true] at hd
    simp only [hd, Bool.false_eq_true, if_false]
    exact intKeysDisjoint_modifySym _ _ hgg

/-- START preserves the invariant. -/
theorem intKeysDisjoint_start {g : BNF} (h : intKeysDisjoint g) :
    intKeysDisjoint g.conversion_start := by
  unfold BNF.conversion_start
  by_cases hocc : g.does_start_occur_on_right = true
  · simp only [hocc, if_true]
    have h1 : intKeysDisjoint ({ g with start_symbol := g.start_symbol + 1 } : BNF) := by
      obtain ⟨h1, h2, h3, h4⟩ := h
      refine ⟨h1, h2, by show (0 : Int) ≤ g.start_symbol + 1; omega, ?_⟩
      intro k hk
      have := h4 k hk
      match k with
      | PyVal.i n =>
        rcases this with hl | hr
        · refine Or.inl ⟨hl.1, ?_⟩
          show n ≤ g.start_symbol + 1
          have := hl.2
          omega
        · exact Or.inr hr
      | PyVal.s _ => trivial
      | PyVal.tup _ => trivial
    unfold BNF.add_intermediate_symbol
    exact intKeysDisjoint_add_rule _ _ (intKeysDisjoint_add_symbol_start false h1)
  · simp only [Bool.not_eq_true] at hocc
    simp only [hocc, Bool.false_eq_true, if_false]
    exact h

/-- The invariant holds in the initial state. -/
theorem intKeysDisjoint_init : intKeysDisjoint BNF.init := by
  refine ⟨by decide, by decide, by decide, ?_⟩
  intro k hk
  rcases List.mem_singleton.mp hk with rfl
  exact Or.inl ⟨le_refl _, le_refl _⟩

/-- Every string-declaring public call preserves the invariant. -/
theorem intKeysDisjoint_applyOp {g : BNF} {op : PublicOp}
    (hop : op.declaresOnlyStrings = true) (h : intKeysDisjoint g) :
    intKeysDisjoint (applyOp g op) := by
  cases op with
  | addSymbol sym b =>
    match sym, hop with
    | PyVal.s str, _ => exact intKeysDisjoint_add_symbol_str str b h
  | addTerminalSymbol sym =>
    match sym, hop with
    | PyVal.s str, _ => exact intKeysDisjoint_add_symbol_str str true h
  | addIntermediateSymbol sym =>
    match sym, hop with
    | PyVal.s str, _ => exact intKeysDisjoint_add_symbol_str str false h
  | addRule p out => exact intKeysDisjoint_add_rule p out h
  | addTag sym t => exact intKeysDisjoint_of_eq h rfl rfl rfl

/-! ## Claim theorem: namespace disjointness (C6 amended) -/

/-- A full conversion pass preserves the invariant. -/
theorem intKeysDisjoint_pass {g : BNF} (h : intKeysDisjoint g) :
    intKeysDisjoint g.conversion_pass := by
  unfold BNF.conversion_pass BNF.conversion_del
  exact intKeysDisjoint_unit (intKeysDisjoint_bin
    (intKeysDisjoint_term (intKeysDisjoint_start h)))

/-- Any number of conversion passes preserves the invariant. -/
theorem intKeysDisjoint_passIter :
    ∀ (k : Nat) (g : BNF), intKeysDisjoint g → intKeysDisjoint (BNF.passIter k g) := by
  intro k
  induction k with
  | zero => intro g h; exact h
  | succ n ih =>
    intro g h
    exact ih _ (intKeysDisjoint_pass h)

/-- C6 amended: provided the caller declares only string identities (as the
class docstring directs — the counterexample
`conversion_term_overwrites_caller_symbol` shows that integer identities can
collide), after any number of public calls and conversion passes the symbol
keys are pairwise distinct and every integer key lies either in the
start-symbol chain `[0, start_symbol]` or strictly above the decrementing
term/bin counter: the two synthetic namespaces are disjoint from each other
(non-negative versus negative), disjoint from caller identities (integers
versus strings), and the next id of either namespace is never a present key,
so fresh allocations never collide. -/
theorem synthetic_namespaces_disjoint (ops : List PublicOp)
    (h : ops.all PublicOp.declaresOnlyStrings = true) (k : Nat) :
    intKeysDisjoint (BNF.passIter k (buildOps ops)) := by
  have hbuild : intKeysDisjoint (buildOps ops) := by
    unfold buildOps
    refine foldl_preserve intKeysDisjoint _ _ _ intKeysDisjoint_init ?_
    intro s op hop hs
    exact intKeysDisjoint_applyOp (List.all_eq_true.mp h op hop) hs
  exact intKeysDisjoint_passIter k _ hbuild

/-- Witness for C6 amended: two conversion passes over a concrete
string-declared grammar. -/
theorem synthetic_namespaces_disjoint_witness :
    intKeysDisjoint (BNF.passIter 2 (buildOps
      [.addTerminalSymbol (.s "a"), .addIntermediateSymbol (.s "A"),
       .addRule (.i 0) [.s "A", .s "a"], .addRule (.s "A") [.s "a"]])) :=
  synthetic_namespaces_disjoint _ (by decide) 2

/-! ## More dictionary and fold lemmas (for the output-shape claim) -/

theorem dictInsert_mem_cases {α β : Type} [DecidableEq α]
    {l : Dict α β} {k : α} {v : β} {e : α × β} (h : e ∈ dictInsert l k v) :
    e = (k, v) ∨ e ∈ l := by
  induction l with
  | nil => simpa [dictInsert] using h
  | cons e0 rest ih =>
    obtain ⟨k0, v0⟩ := e0
    by_cases h0 : k0 = k
    · subst h0
      simp only [dictInsert, if_pos rfl] at h
      rcases List.mem_cons.mp h with rfl | h
      · exact Or.inl rfl
      · exact Or.inr (List.mem_cons_of_mem _ h)
    · simp only [dictInsert, if_neg h0] at h
      rcases List.mem_cons.mp h with rfl | h
      · exact Or.inr (List.mem_cons_self _ _)
      · rcases ih h with h | h
        · exact Or.inl h
        · exact Or.inr (List.mem_cons_of_mem _ h)

theorem dictModify_mem_cases {α β : Type} [DecidableEq α]
    {l : Dict α β} {k : α} {f : β → β} {e : α × β} (h : e ∈ dictModify l k f) :
    e ∈ l ∨ ∃ w, (k, w) ∈ l ∧ e = (k, f w) := by
  induction l with
  | nil => simp [dictModify] at h
  | cons e0 rest ih =>
    obtain ⟨k0, v0⟩ := e0
    by_cases h0 : k0 = k
    · subst h0
      simp only [dictModify, if_pos rfl] at h
      rcases List.mem_cons.mp h with rfl | h
      · exact Or.inr ⟨v0, List.mem_cons_self _ _, rfl⟩
      · exact Or.inl (List.mem_cons_of_mem _ h)
    · simp only [dictModify, if_neg h0] at h
      rcases List.mem_cons.mp h with rfl | h
      · exact Or.inl (List.mem_cons_self _ _)
      · rcases ih h with h | ⟨w, hw, he⟩
        · exact Or.inl (List.mem_cons_of_mem _ h)
        · exact Or.inr ⟨w, List.mem_cons_of_mem _ hw, he⟩

/-- With pairwise-distinct keys, entries are determined by their key. -/
theorem nodup_entry_unique {α β : Type} {l : Dict α β}
    (hnd : (dictKeys l).Nodup) {k : α} {a b : β}
    (ha : (k, a) ∈ l) (hb : (k, b) ∈ l) : a = b := by
  induction l with
  | nil => simp at ha
  | cons e0 rest ih =>
    obtain ⟨k0, v0⟩ := e0
    simp only [dictKeys, List.map_cons, List.nodup_cons] at hnd
    rcases List.mem_cons.mp ha with ha0 | ha0 <;> rcases List.mem_cons.mp hb with hb0 | hb0
    · rw [Prod.mk.injEq] at ha0 hb0
      rw [ha0.2, hb0.2]
    · rw [Prod.mk.injEq] at ha0
      exfalso
      exact hnd.1 (ha0.1 ▸ (List.mem_map_of_mem (fun x => x.1) hb0))
    · rw [Prod.mk.injEq] at hb0
      exfalso
      exact hnd.1 (hb0.1 ▸ (List.mem_map_of_mem (fun x => x.1) ha0))
    · exact ih hnd.2 ha0 hb0

theorem mem_keys_dictInsert_self {α β : Type} [DecidableEq α]
    (l : Dict α β) (k : α) (v : β) : k ∈ dictKeys (dictInsert l k v) := by
  rw [← dictLookup_isSome_iff, dictLookup_insert_self]
  rfl

theorem mem_keys_dictInsert_of_mem {α β : Type} [DecidableEq α]
    {l : Dict α β} {x : α} (k : α) (v : β) (h : x ∈ dictKeys l) :
    x ∈ dictKeys (dictInsert l k v) := by
  by_cases hx : x = k
  · subst hx; exact mem_keys_dictInsert_self l x v
  · rw [← dictLookup_isSome_iff, dictLookup_insert_ne _ _ hx, dictLookup_isSome_iff]
    exact h

theorem dictKeys_insert_nodup {α β : Type} [DecidableEq α]
    {l : Dict α β} (k : α) (v : β) (h : (dictKeys l).Nodup) :
    (dictKeys (dictInsert l k v)).Nodup := by
  by_cases hk : k ∈ dictKeys l
  · rw [dictKeys_insert_of_mem _ _ hk]
    exact h
  · rw [dictInsert_of_not_mem _ _ hk]
    simp only [dictKeys, List.map_append, List.map_cons, List.map_nil]
    rw [List.nodup_append]
    exact ⟨h, List.nodup_singleton _, by
      intro x hx hx2
      simp only [List.mem_singleton] at hx2
      subst hx2
      exact hk hx⟩

/-- Invariants carried through a successful `foldlM` in the `Option`
monad. -/
theorem foldlM_option_preserve {α β : Type} (P : β → Prop) (f : β → α → Option β)
    (l : List α) :
    ∀ (b : β), P b → (∀ s, ∀ x ∈ l, P s → ∀ s2, f s x = some s2 → P s2) →
    ∀ r, l.foldlM f b = some r → P r := by
  induction l with
  | nil =>
    intro b hb _ r hr
    simp only [List.foldlM_nil] at hr
    injection hr with hr
    subst hr
    exact hb
  | cons x xs ih =>
    intro b hb hf r hr
    simp only [List.foldlM_cons] at hr
    cases hfx : f b x with
    | none => rw [hfx] at hr; simp at hr
    | some b2 =>
      rw [hfx] at hr
      exact ih b2 (hf b x (List.mem_cons_self _ _) hb b2 hfx)
        (fun s y hy hs s2 hs2 => hf s y (List.mem_cons_of_mem _ hy) hs s2 hs2) r hr

/-- Splitting the count of integer tag values at the lower bound `n`. -/
theorem countP_int_ge_succ (vals : List Tag) (n : Nat) :
    vals.countP (fun v => match v with
      | some (PyVal.i m) => decide ((n : Int) ≤ m)
      | _ => false) =
    vals.countP (fun v => match v with
      | some (PyVal.i m) => decide (((n + 1 : Nat) : Int) ≤ m)
      | _ => false) + vals.count (some (PyVal.i (n : Int))) := by
  induction vals with
  | nil => rfl
  | cons v vs ih =>
    rw [List.countP_cons, List.countP_cons, List.count_cons, ih]
    match v with
    | none => simp
    | some (PyVal.s _) => simp
    | some (PyVal.tup _) => simp
    | some (PyVal.i m) =>
      by_cases hm : m = (n : Int)
      · subst hm
        have h1 : (decide ((n : Int) ≤ (n : Int))) = true := by simp
        have h2 : (decide (((n + 1 : Nat) : Int) ≤ (n : Int))) = false := by
          simp only [decide_eq_false_iff_not, not_le]
          push_cast
          omega
        simp only [h1, h2]
        simp
        omega
      · have h3 : (some (PyVal.i m) == some (PyVal.i (n : Int))) = false := by
          simp only [beq_eq_false_iff_ne, ne_eq, Option.some.injEq, PyVal.i.injEq]
          exact hm
        rw [h3]
        by_cases hge : (n : Int) ≤ m
        · have h1 : (decide ((n : Int) ≤ m)) = true := by simp [hge]
          have h2 : (decide (((n + 1 : Nat) : Int) ≤ m)) = true := by
            simp only [decide_eq_true_eq]
            push_cast
            omega
          simp only [h1, h2]
          simp
          omega
        · have h1 : (decide ((n : Int) ≤ m)) = false := by simp [hge]
          have h2 : (decide (((n + 1 : Nat) : Int) ≤ m)) = false := by
            simp only [decide_eq_false_iff_not, not_le]
            push_cast
            omega
          simp only [h1, h2]
          simp

/-- With enough fuel, `firstFree` returns an integer whose auto tag is not
yet used as a value. -/
theorem firstFree_fresh (vals : List Tag) :
    ∀ (fuel n : Nat),
      vals.countP (fun v => match v with
        | some (PyVal.i m) => decide ((n : Int) ≤ m)
        | _ => false) < fuel →
      some (PyVal.i ((firstFree vals fuel n : Nat) : Int)) ∉ vals := by
  intro fuel
  induction fuel with
  | zero => intro n h; omega
  | succ f ih =>
    intro n h
    by_cases hm : (some (PyVal.i (n : Int)) : Tag) ∈ vals
    · have hrec : firstFree vals (f + 1) n = firstFree vals f (n + 1) := by
        simp only [firstFree]
        rw [if_pos hm]
      rw [hrec]
      apply ih
      have hsplit := countP_int_ge_succ vals n
      have hpos : 0 < vals.count (some (PyVal.i (n : Int))) :=
        List.count_pos_iff.mpr hm
      omega
    · have hrec : firstFree vals (f + 1) n = n := by
        simp only [firstFree]
        rw [if_neg hm]
      rw [hrec]
      exact hm

/-! ## Frame facts carried through the conversion pipeline -/

theorem stateWF_modifySym {T : Dict PyVal Tag} {g : BNF} (k : PyVal)
    (f : BNF_Symbol → BNF_Symbol) (h : stateWF T g) : stateWF T (g.modifySym k f) := by
  obtain ⟨h1, h2, h3, h4⟩ := h
  refine ⟨h1, ?_, ?_, ?_⟩
  · intro e he
    rw [isSome_modify]
    exact h2 e he
  · show (dictLookup (g.modifySym k f).symbols (PyVal.i g.start_symbol)).isSome = true
    rw [isSome_modify]
    exact h3
  · show (dictKeys (dictModify g.symbols k f)).Nodup
    rw [dictKeys_modify]
    exact h4

theorem stateWF_ctr {T : Dict PyVal Tag} {g : BNF} (c : Int) (h : stateWF T g) :
    stateWF T { g with current_term_replacement := c } := h

theorem stateWF_add_symbol {T : Dict PyVal Tag} {g : BNF} (sym : PyVal) (b : Bool)
    (h : stateWF T g) : stateWF T (g.add_symbol sym b).2 := by
  obtain ⟨h1, h2, h3, h4⟩ := h
  unfold BNF.add_symbol
  by_cases hp : (dictLookup g.symbols sym).isSome = true
  · simpa [hp] using (⟨h1, h2, h3, h4⟩ : stateWF T g)
  · simp only [Bool.not_eq_true] at hp
    simp only [hp, Bool.false_eq_true, if_false]
    refine ⟨h1, ?_, ?_, ?_⟩
    · intro e he
      show (dictLookup (g.symbols ++ [(sym, BNF_Symbol.init sym b)]) e.1).isSome = true
      rw [dictLookup_append]
      have h5 := h2 e he
      cases hl : dictLookup g.symbols e.1 with
      | none => rw [hl] at h5; simp at h5
      | some v => simp
    · show (dictLookup (g.symbols ++ [(sym, BNF_Symbol.init sym b)])
        (PyVal.i g.start_symbol)).isSome = true
      rw [dictLookup_append]
      cases hl : dictLookup g.symbols (PyVal.i g.start_symbol) with
      | none =>
        have h6 : (dictLookup g.symbols (PyVal.i g.start_symbol)).isSome = true := h3
        rw [hl] at h6
        simp at h6
      | some v => simp
    · show (dictKeys (g.symbols ++ [(sym, BNF_Symbol.init sym b)])).Nodup
      simp only [dictKeys, List.map_append]
      rw [List.nodup_append]
      refine ⟨h4, List.nodup_singleton _, ?_⟩
      intro x hx hx2
      simp only [List.map_cons, List.map_nil, List.mem_singleton] at hx2
      subst hx2
      have hx3 := (dictLookup_isSome_iff g.symbols _).mpr hx
      rw [hp] at hx3
      simp at hx3

theorem stateWF_add_rule {T : Dict PyVal Tag} {g : BNF} (p : PyVal) (out : List PyVal)
    (h : stateWF T g) : stateWF T (g.add_rule p out).2 := by
  unfold BNF.add_rule
  cases dictLookup g.symbols p with
  | none => exact h
  | some rec0 =>
    by_cases hterm : rec0.is_terminal = true
    · simpa [hterm] using h
    · simp only [Bool.not_eq_true] at hterm
      simp only [hterm, Bool.false_eq_true, if_false]
      by_cases hany : (out.any fun x => (dictLookup g.symbols x).isNone) = true
      · simpa [hany] using h
      · simp only [Bool.not_eq_true] at hany
        simp only [hany, Bool.false_eq_true, if_false]
        refine foldl_preserve (stateWF T) _ out _ ?_ ?_
        · exact stateWF_modifySym _ _ h
        · intro s x _ hs
          exact stateWF_modifySym _ _ hs

theorem stateWF_replacer {T : Dict PyVal Tag} {g : BNF} (t : PyVal)
    (h : stateWF T g) : stateWF T (g.conversion_term_replacer t).2 := by
  obtain ⟨h1, h2, h3, h4⟩ := h
  unfold BNF.conversion_term_replacer
  simp only
  refine stateWF_modifySym _ _ (stateWF_modifySym _ _ ?_)
  refine ⟨h1, ?_, ?_, ?_⟩
  · intro e he
    show (dictLookup (dictInsert g.symbols (PyVal.i g.current_term_replacement)
      (BNF_Symbol.init (PyVal.i g.current_term_replacement) false)) e.1).isSome = true
    by_cases hk : e.1 = PyVal.i g.current_term_replacement
    · rw [hk, dictLookup_insert_self]; rfl
    · rw [dictLookup_insert_ne _ _ hk]
      exact h2 e he
  · show (dictLookup (dictInsert g.symbols (PyVal.i g.current_term_replacement)
      (BNF_Symbol.init (PyVal.i g.current_term_replacement) false))
      (PyVal.i g.start_symbol)).isSome = true
    by_cases hk : PyVal.i g.start_symbol = PyVal.i g.current_term_replacement
    · rw [hk, dictLookup_insert_self]; rfl
    · rw [dictLookup_insert_ne _ _ hk]
      exact h3
  · show (dictKeys (dictInsert g.symbols (PyVal.i g.current_term_replacement)
      (BNF_Symbol.init (PyVal.i g.current_term_replacement) false))).Nodup
    exact dictKeys_insert_nodup _ _ h4

theorem stateWF_term {T : Dict PyVal Tag} {g : BNF} (h : stateWF T g) :
    stateWF T g.conversion_term := by
  unfold BNF.conversion_term
  refine foldl_preserve (stateWF T) _ _ _ h ?_
  intro s symbol _ hs
  unfold BNF.conversion_term_symbol_step
  refine foldl_preserve (stateWF T) _ _ _ hs ?_
  intro s2 rule _ hs2
  unfold BNF.conversion_term_rule_step
  by_cases hnec : s2.check_if_conversion_term_necessary rule = true
  · simp only [hnec, if_true]
    unfold BNF.conversion_term_product_determinalizer
    have hst : stateWF T (rule.foldl BNF.conversion_term_item_step (false, s2)).2 := by
      refine foldl_preserve (fun st : Bool × BNF => stateWF T st.2) _ _ _ hs2 ?_
      intro st item _ hstI
      unfold BNF.conversion_term_item_step
      by_cases hfl : st.2.flagOf item = true
      · simp only [hfl, if_true]
        exact stateWF_replacer _ hstI
      · simp only [Bool.not_eq_true] at hfl
        simp only [hfl, Bool.false_eq_true, if_false]
        exact hstI
    by_cases hrep : (rule.foldl BNF.conversion_term_item_step (false, s2)).1 = true
    · simp only [hrep, if_true]
      exact stateWF_modifySym _ _ hst
    · simp only [Bool.not_eq_true] at hrep
      simp only [hrep, Bool.false_eq_true, if_false]
      exact hst
  · simp only [Bool.not_eq_true] at hnec
    simp only [hnec, Bool.false_eq_true, if_false]
    exact hs2

theorem stateWF_splitter {T : Dict PyVal Tag} {g : BNF} (p : PyVal) (rule : Rule)
    (h : stateWF T g) : stateWF T (g.conversion_bin_splitter p rule).2 := by
  unfold BNF.conversion_bin_splitter
  simp only
  have hP : ∀ (st : List (PyVal × PyVal × PyVal) × PyVal × Int × BNF),
      stateWF T st.2.2.2 →
      stateWF T
        ((rule.take (rule.length - 2)).foldl BNF.conversion_bin_splitter_step st).2.2.2 := by
    intro st hst
    refine foldl_preserve
      (fun st2 : List (PyVal × PyVal × PyVal) × PyVal × Int × BNF => stateWF T st2.2.2.2)
      _ _ _ hst ?_
    intro st2 item _ hst2
    obtain ⟨reps, prev, rid, gg⟩ := st2
    unfold BNF.conversion_bin_splitter_step
    simp only at hst2 ⊢
    exact stateWF_ctr _ (stateWF_add_symbol _ _ hst2)
  exact hP _ (stateWF_ctr _ h)

theorem stateWF_bin {T : Dict PyVal Tag} {g : BNF} (h : stateWF T g) :
    stateWF T g.conversion_bin := by
  unfold BNF.conversion_bin
  refine foldl_preserve (stateWF T) _ _ _ h ?_
  intro s symbol _ hs
  unfold BNF.conversion_bin_symbol_step
  refine foldl_preserve (stateWF T) _ _ _ hs ?_
  intro s2 rule _ hs2
  unfold BNF.conversion_bin_rule_step
  by_cases happ : BNF.is_bin_applicable rule = true
  · simp only [happ, if_true]
    have hsp := stateWF_splitter symbol rule hs2
    have happly : stateWF T
        (((s2.conversion_bin_splitter symbol rule).1).foldl BNF.conversion_bin_apply_step
          ((s2.conversion_bin_splitter symbol rule).2)) := by
      refine foldl_preserve (stateWF T) _ _ _ hsp ?_
      intro s3 rep _ hs3
      unfold BNF.conversion_bin_apply_step
      exact stateWF_modifySym _ _ (stateWF_modifySym _ _ (stateWF_modifySym _ _ hs3))
    refine foldl_preserve (stateWF T) _ _ _ (stateWF_modifySym _ _ happly) ?_
    intro s3 item _ hs3
    unfold BNF.conversion_bin_drop_step
    by_cases hd : s3.is_only_subrule_with_daughter symbol item = true
    · simp only [hd, if_true]
      exact stateWF_modifySym _ _ hs3
    · simp only [Bool.not_eq_true] at hd
      simp only [hd, Bool.false_eq_true, if_false]
      exact hs3
  · simp only [Bool.not_eq_true] at happ
    simp only [happ, Bool.false_eq_true, if_false]
    exact hs2

theorem stateWF_unit {T : Dict PyVal Tag} {g : BNF} (h : stateWF T g) :
    stateWF T g.conversion_unit := by
  unfold BNF.conversion_unit
  have hst : stateWF T
      ((dictKeys g.symbols).foldl BNF.conversion_unit_collect_step ([], g)).2 := by
    refine foldl_preserve (fun st : List (PyVal × PyVal) × BNF => stateWF T st.2)
      _ _ _ h ?_
    intro st symbol _ hstI
    unfold BNF.conversion_unit_collect_step
    refine foldl_preserve (fun st : List (PyVal × PyVal) × BNF => stateWF T st.2)
      _ _ _ hstI ?_
    intro st2 rule _ hst2
    unfold BNF.conversion_unit_collect_rule_step
    split
    · split
      · split
        · exact hst2
        · refine foldl_preserve (stateWF T) _ _ _ hst2 ?_
          intro gg subrule _ hgg
          exact stateWF_modifySym _ _ hgg
      · exact hst2
    · exact hst2
  refine foldl_preserve (stateWF T) _ _ _ hst ?_
  intro gg pr _ hgg
  unfold BNF.conversion_unit_remove_step
  simp only
  by_cases hd : (gg.modifySym pr.1 fun r =>
      (r.remove_rule [pr.2]).2).is_only_subrule_with_daughter pr.1 pr.2 = true
  · simp only [hd, if_true]
    exact stateWF_modifySym _ _ (stateWF_modifySym _ _ hgg)
  · simp only [Bool.not_eq_true] at hd
    simp only [hd, Bool.false_eq_true, if_false]
    exact stateWF_modifySym _ _ hgg

/-- Declaring the bumped start symbol yields a state whose start symbol is
declared again. -/
theorem stateWF_start_decl {T : Dict PyVal Tag} {g : BNF} (h : stateWF T g) :
    stateWF T (({ g with start_symbol := g.start_symbol + 1 } : BNF).add_symbol
      (PyVal.i (g.start_symbol + 1)) false).2 := by
  obtain ⟨h1, h2, h3, h4⟩ := h
  unfold BNF.add_symbol
  by_cases hp : (dictLookup g.symbols (PyVal.i (g.start_symbol + 1))).isSome = true
  · rw [if_pos hp]
    exact ⟨h1, h2, hp, h4⟩
  · rw [if_neg hp]
    refine ⟨h1, ?_, ?_, ?_⟩
    · intro e he
      show (dictLookup (g.symbols ++ [(PyVal.i (g.start_symbol + 1),
        BNF_Symbol.init (PyVal.i (g.start_symbol + 1)) false)]) e.1).isSome = true
      rw [dictLookup_append]
      have h5 := h2 e he
      cases hl : dictLookup g.symbols e.1 with
      | none => rw [hl] at h5; simp at h5
      | some v => simp
    · show (dictLookup (g.symbols ++ [(PyVal.i (g.start_symbol + 1),
        BNF_Symbol.init (PyVal.i (g.start_symbol + 1)) false)])
        (PyVal.i (g.start_symbol + 1))).isSome = true
      rw [dictLookup_append]
      cases hl : dictLookup g.symbols (PyVal.i (g.start_symbol + 1)) with
      | none => simp [dictLookup]
      | some v => simp
    · show (dictKeys (g.symbols ++ [(PyVal.i (g.start_symbol + 1),
        BNF_Symbol.init (PyVal.i (g.start_symbol + 1)) false)])).Nodup
      simp only [dictKeys, List.map_append]
      rw [List.nodup_append]
      refine ⟨h4, List.nodup_singleton _, ?_⟩
      intro x hx hx2
      simp only [List.map_cons, List.map_nil, List.mem_singleton] at hx2
      subst hx2
      exact hp ((dictLookup_isSome_iff g.symbols _).mpr hx)

theorem stateWF_start {T : Dict PyVal Tag} {g : BNF} (h : stateWF T g) :
    stateWF T g.conversion_start := by
  unfold BNF.conversion_start
  by_cases hocc : g.does_start_occur_on_right = true
  · simp only [hocc, if_true]
    unfold BNF.add_intermediate_symbol
    exact stateWF_add_rule _ _ (stateWF_start_decl h)
  · simp only [Bool.not_eq_true] at hocc
    simp only [hocc, Bool.false_eq_true, if_false]
    exact h

theorem stateWF_pass {T : Dict PyVal Tag} {g : BNF} (h : stateWF T g) :
    stateWF T g.conversion_pass := by
  unfold BNF.conversion_pass BNF.conversion_del
  exact stateWF_unit (stateWF_bin (stateWF_term (stateWF_start h)))

/-! ## The tag table produced by `set_unset_tags` -/

/-- Appending a binding whose value is fresh keeps the tag table
value-injective. -/
theorem tagsInj_append_fresh {l : Dict PyVal Tag} {k : PyVal} {v : Tag}
    (hinj : tagsValuesInjective l) (hv : v ∉ dictValues l) :
    tagsValuesInjective (l ++ [(k, v)]) := by
  intro e1 he1 e2 he2 heq
  rcases List.mem_append.mp he1 with he1 | he1 <;>
    rcases List.mem_append.mp he2 with he2 | he2
  · exact hinj e1 he1 e2 he2 heq
  · rw [List.mem_singleton] at he2
    subst he2
    exfalso
    apply hv
    show (k, v).2 ∈ List.map (fun x => x.2) l
    rw [← heq]
    exact List.mem_map_of_mem _ he1
  · rw [List.mem_singleton] at he1
    subst he1
    exfalso
    apply hv
    show (k, v).2 ∈ List.map (fun x => x.2) l
    rw [heq]
    exact List.mem_map_of_mem _ he2
  · rw [List.mem_singleton] at he1
    rw [List.mem_singleton] at he2
    rw [he1, he2]

/-- Forcing one key to the sentinel `None` keeps a sentinel-free tag table
value-injective. -/
theorem tagsInj_insert_none {l : Dict PyVal Tag} {k : PyVal}
    (hinj : tagsValuesInjective l) (hn : noneNotTagValue l) :
    tagsValuesInjective (dictInsert l k none) := by
  intro e1 he1 e2 he2 heq
  rcases dictInsert_mem_cases he1 with he1 | he1 <;>
    rcases dictInsert_mem_cases he2 with he2 | he2
  · rw [he1, he2]
  · exfalso
    apply hn e2 he2
    rw [← heq, he1]
  · exfalso
    apply hn e1 he1
    rw [heq, he2]
  · exact hinj e1 he1 e2 he2 heq

theorem dictLookup_append_single_isSome {α β : Type} [DecidableEq α]
    {l : Dict α β} {k x : α} {v : β}
    (h : (dictLookup (l ++ [(k, v)]) x).isSome = true) :
    (dictLookup l x).isSome = true ∨ x = k := by
  by_cases hxk : x = k
  · exact Or.inr hxk
  · rw [dictLookup_append] at h
    cases hl : dictLookup l x with
    | some w => exact Or.inl rfl
    | none =>
      rw [hl] at h
      simp only [dictLookup, if_neg (Ne.symm hxk)] at h
      simp at h

/-- The tag-assignment fold of `set_unset_tags` keeps the table
value-injective and sentinel-free, and only tags caller-tagged or declared
symbols. -/
theorem set_unset_fold_facts (g2 : BNF)
    (hinj : tagsValuesInjective g2.tags) (hnone : noneNotTagValue g2.tags) :
    tagsValuesInjective ((dictKeys g2.symbols).foldl BNF.set_unset_step (0, g2.tags)).2 ∧
    noneNotTagValue ((dictKeys g2.symbols).foldl BNF.set_unset_step (0, g2.tags)).2 ∧
    ∀ x, (dictLookup ((dictKeys g2.symbols).foldl BNF.set_unset_step
        (0, g2.tags)).2 x).isSome = true →
      (dictLookup g2.tags x).isSome = true ∨ x ∈ dictKeys g2.symbols := by
  refine foldl_preserve (fun st : Nat × Dict PyVal Tag =>
    tagsValuesInjective st.2 ∧ noneNotTagValue st.2 ∧
    ∀ x, (dictLookup st.2 x).isSome = true →
      (dictLookup g2.tags x).isSome = true ∨ x ∈ dictKeys g2.symbols)
    _ _ _ ⟨hinj, hnone, fun x hx => Or.inl hx⟩ ?_
  intro st symbol hsym hst
  obtain ⟨hI, hN, hD⟩ := hst
  unfold BNF.set_unset_step
  by_cases hp : (dictLookup st.2 symbol).isSome = true
  · simp only [hp, if_true]
    exact ⟨hI, hN, hD⟩
  · simp only [Bool.not_eq_true] at hp
    simp only [hp, Bool.false_eq_true, if_false]
    have hkabs : symbol ∉ dictKeys st.2 := by
      intro hmem
      have h6 := (dictLookup_isSome_iff st.2 symbol).mpr hmem
      rw [hp] at h6
      simp at h6
    have hfresh : (some (PyVal.i
        ((firstFree (dictValues st.2) (st.2.length + 1) st.1 : Nat) : Int)) : Tag)
        ∉ dictValues st.2 := by
      apply firstFree_fresh
      have hle : (dictValues st.2).countP (fun v => match v with
        | some (PyVal.i m) => decide ((st.1 : Int) ≤ m)
        | _ => false) ≤ (dictValues st.2).length := List.countP_le_length _
      have hlen : (dictValues st.2).length = st.2.length := List.length_map _ _
      omega
    show tagsValuesInjective (dictInsert st.2 symbol (some (PyVal.i
        ((firstFree (dictValues st.2) (st.2.length + 1) st.1 : Nat) : Int)))) ∧
      noneNotTagValue (dictInsert st.2 symbol (some (PyVal.i
        ((firstFree (dictValues st.2) (st.2.length + 1) st.1 : Nat) : Int)))) ∧
      ∀ x, (dictLookup (dictInsert st.2 symbol (some (PyVal.i
          ((firstFree (dictValues st.2) (st.2.length + 1) st.1 : Nat) : Int)))) x).isSome
          = true →
        (dictLookup g2.tags x).isSome = true ∨ x ∈ dictKeys g2.symbols
    rw [dictInsert_of_not_mem _ _ hkabs]
    refine ⟨tagsInj_append_fresh hI hfresh, ?_, ?_⟩
    · intro e he
      rcases List.mem_append.mp he with he | he
      · exact hN e he
      · rw [List.mem_singleton] at he
        rw [he]
        simp
    · intro x hx
      rcases dictLookup_append_single_isSome hx with hx | hx
      · exact hD x hx
      · refine Or.inr ?_
        rw [hx]
        exact hsym

/-- After `set_unset_tags` the tag table is value-injective. -/
theorem set_unset_tags_inj {g2 : BNF}
    (hinj : tagsValuesInjective g2.tags) (hnone : noneNotTagValue g2.tags) :
    tagsValuesInjective (g2.set_unset_tags).tags := by
  obtain ⟨hI, hN, _⟩ := set_unset_fold_facts g2 hinj hnone
  show tagsValuesInjective (dictInsert
    ((dictKeys g2.symbols).foldl BNF.set_unset_step (0, g2.tags)).2
    (PyVal.i g2.start_symbol) none)
  exact tagsInj_insert_none hI hN

/-- After `set_unset_tags`, only caller-tagged symbols, declared symbols and
the start symbol are tagged. -/
theorem set_unset_tags_domain {g2 : BNF} (x : PyVal) (t : Tag)
    (hinj : tagsValuesInjective g2.tags) (hnone : noneNotTagValue g2.tags)
    (h : dictLookup (g2.set_unset_tags).tags x = some t) :
    (dictLookup g2.tags x).isSome = true ∨ x ∈ dictKeys g2.symbols ∨
      x = PyVal.i g2.start_symbol := by
  obtain ⟨_, _, hD⟩ := set_unset_fold_facts g2 hinj hnone
  by_cases hxs : x = PyVal.i g2.start_symbol
  · exact Or.inr (Or.inr hxs)
  · have h3 : dictLookup (dictInsert
        ((dictKeys g2.symbols).foldl BNF.set_unset_step (0, g2.tags)).2
        (PyVal.i g2.start_symbol) none) x = some t := h
    rw [dictLookup_insert_ne _ _ hxs] at h3
    rcases hD x (by rw [h3]; rfl) with hx | hx
    · exact Or.inl hx
    · exact Or.inr (Or.inl hx)

/-- Every symbol tagged after `set_unset_tags` is declared, given the frame
facts. -/
theorem tagged_symbol_declared {g2 : BNF} {x : PyVal} {t : Tag}
    (htd : tagDomainDeclared g2) (hsd : startDeclared g2)
    (hinj : tagsValuesInjective g2.tags) (hnone : noneNotTagValue g2.tags)
    (h : dictLookup (g2.set_unset_tags).tags x = some t) :
    (dictLookup g2.symbols x).isSome = true := by
  rcases set_unset_tags_domain x t hinj hnone h with hx | hx | hx
  · obtain ⟨w, hw⟩ := Option.isSome_iff_exists.mp hx
    exact htd (x, w) (dictLookup_mem hw)
  · exact (dictLookup_isSome_iff _ _).mpr hx
  · rw [hx]
    exact hsd

/-! ## The symbol-declaration phase of `create_phrase_structure` -/

theorem ps_add_symbol_isSome_self (ps : PhraseStructure) (t : Tag) (b : Bool) :
    (dictLookup (ps.add_symbol t b).symbols t).isSome = true := by
  unfold PhraseStructure.add_symbol
  by_cases hp : (dictLookup ps.symbols t).isSome = true
  · rw [if_pos hp]
    exact hp
  · rw [if_neg hp]
    show (dictLookup (ps.symbols ++ [(t, ⟨t, [], [], b⟩)]) t).isSome = true
    rw [dictLookup_append]
    cases hl : dictLookup ps.symbols t with
    | some v => rfl
    | none => simp [dictLookup]

theorem ps_add_symbol_isSome_mono {ps : PhraseStructure} {x : Tag} (t : Tag) (b : Bool)
    (h : (dictLookup ps.symbols x).isSome = true) :
    (dictLookup (ps.add_symbol t b).symbols x).isSome = true := by
  unfold PhraseStructure.add_symbol
  by_cases hp : (dictLookup ps.symbols t).isSome = true
  · rw [if_pos hp]
    exact h
  · rw [if_neg hp]
    show (dictLookup (ps.symbols ++ [(t, ⟨t, [], [], b⟩)]) x).isSome = true
    rw [dictLookup_append]
    cases hl : dictLookup ps.symbols x with
    | some v => rfl
    | none => rw [hl] at h; simp at h

theorem ps_add_symbol_lookup_cases {ps : PhraseStructure} {t x : Tag} {b : Bool}
    {rec : PhraseStructureSymbol}
    (h : dictLookup (ps.add_symbol t b).symbols x = some rec) :
    dictLookup ps.symbols x = some rec ∨ (x = t ∧ rec = ⟨t, [], [], b⟩) := by
  unfold PhraseStructure.add_symbol at h
  by_cases hp : (dictLookup ps.symbols t).isSome = true
  · rw [if_pos hp] at h
    exact Or.inl h
  · rw [if_neg hp] at h
    have h2 : dictLookup (ps.symbols ++ [(t, ⟨t, [], [], b⟩)]) x = some rec := h
    rw [dictLookup_append] at h2
    cases hl : dictLookup ps.symbols x with
    | some v =>
      rw [hl] at h2
      have h3 : some v = some rec := h2
      exact Or.inl h3
    | none =>
      rw [hl] at h2
      have h3 : dictLookup [(t, (⟨t, [], [], b⟩ : PhraseStructureSymbol))] x = some rec := h2
      by_cases hxt : t = x
      · subst hxt
        simp only [dictLookup, if_pos rfl] at h3
        injection h3 with h3
        exact Or.inr ⟨rfl, h3.symm⟩
      · simp only [dictLookup, if_neg hxt] at h3
        simp at h3

/-- Phase A succeeds only by tagging every symbol it walks, and the tag's
record stays present to the end. -/
theorem phaseA_coverage (tags : Dict PyVal Tag) :
    ∀ (l : List (PyVal × BNF_Symbol)) (ps0 psA : PhraseStructure),
      l.foldlM (BNF.create_ps_symbol_step tags) ps0 = some psA →
      ∀ e ∈ l, ∃ t, dictLookup tags e.1 = some t ∧
        (dictLookup psA.symbols t).isSome = true := by
  intro l
  induction l with
  | nil => intro ps0 psA _ e he; simp at he
  | cons e0 rest ih =>
    intro ps0 psA hfold e he
    simp only [List.foldlM_cons] at hfold
    cases ht0 : dictLookup tags e0.1 with
    | none =>
      have hfe : BNF.create_ps_symbol_step tags ps0 e0 = none := by
        have h8 : (dictLookup tags e0.1).bind
            (fun t => some (ps0.add_symbol t e0.2.is_terminal)) =
            BNF.create_ps_symbol_step tags ps0 e0 := rfl
        rw [← h8, ht0]
        rfl
      rw [hfe] at hfold
      have h9 : (none : Option PhraseStructure) = some psA := hfold
      simp at h9
    | some t0 =>
      have hfe : BNF.create_ps_symbol_step tags ps0 e0 =
          some (ps0.add_symbol t0 e0.2.is_terminal) := by
        have h8 : (dictLookup tags e0.1).bind
            (fun t => some (ps0.add_symbol t e0.2.is_terminal)) =
            BNF.create_ps_symbol_step tags ps0 e0 := rfl
        rw [← h8, ht0]
        rfl
      rw [hfe] at hfold
      have hrest : rest.foldlM (BNF.create_ps_symbol_step tags)
          (ps0.add_symbol t0 e0.2.is_terminal) = some psA := hfold
      rcases List.mem_cons.mp he with rfl | he2
      · refine ⟨t0, ht0, ?_⟩
        refine foldlM_option_preserve
          (fun ps : PhraseStructure => (dictLookup ps.symbols t0).isSome = true)
          _ _ _ (ps_add_symbol_isSome_self ps0 t0 _) ?_ psA hrest
        intro s x hx hs s2 hs2
        have h7 : (dictLookup tags x.1).bind
            (fun t => some (s.add_symbol t x.2.is_terminal)) = some s2 := hs2
        cases htx : dictLookup tags x.1 with
        | none =>
          rw [htx] at h7
          have h9 : (none : Option PhraseStructure) = some s2 := h7
          simp at h9
        | some tx =>
          rw [htx] at h7
          have h9 : some (s.add_symbol tx x.2.is_terminal) = some s2 := h7
          injection h9 with h9
          rw [← h9]
          exact ps_add_symbol_isSome_mono _ _ hs
      · exact ih _ _ hrest e he2

/-- Every record declared by phase A is rule-free and carries the terminal
flag of a source symbol holding its tag. -/
theorem phaseA_records {tags : Dict PyVal Tag} {src : List (PyVal × BNF_Symbol)}
    {psA : PhraseStructure}
    (hfold : src.foldlM (BNF.create_ps_symbol_step tags)
      (⟨[]⟩ : PhraseStructure) = some psA) :
    ∀ t rec, dictLookup psA.symbols t = some rec → rec.rules = [] ∧
      ∃ k rk, (k, rk) ∈ src ∧ dictLookup tags k = some t ∧
        rec.is_terminal = rk.is_terminal := by
  refine foldlM_option_preserve
    (fun ps : PhraseStructure => ∀ t rec, dictLookup ps.symbols t = some rec →
      rec.rules = [] ∧ ∃ k rk, (k, rk) ∈ src ∧ dictLookup tags k = some t ∧
        rec.is_terminal = rk.is_terminal)
    _ _ _ ?_ ?_ psA hfold
  · intro t rec h
    simp [dictLookup] at h
  · intro s e he hs s2 hs2
    have h7 : (dictLookup tags e.1).bind
        (fun t => some (s.add_symbol t e.2.is_terminal)) = some s2 := hs2
    cases hte : dictLookup tags e.1 with
    | none =>
      rw [hte] at h7
      have h9 : (none : Option PhraseStructure) = some s2 := h7
      simp at h9
    | some te =>
      rw [hte] at h7
      have h9 : some (s.add_symbol te e.2.is_terminal) = some s2 := h7
      injection h9 with h9
      subst h9
      intro t rec h
      rcases ps_add_symbol_lookup_cases h with h | ⟨h10, h11⟩
      · exact hs t rec h
      · subst h10
        subst h11
        refine ⟨rfl, e.1, e.2, he, hte, rfl⟩

/-- Phase A declares only rule-free records. -/
theorem phaseA_rules_empty {tags : Dict PyVal Tag} {src : List (PyVal × BNF_Symbol)}
    {psA : PhraseStructure}
    (hfold : src.foldlM (BNF.create_ps_symbol_step tags)
      (⟨[]⟩ : PhraseStructure) = some psA) :
    ∀ e ∈ psA.symbols, e.2.rules = [] := by
  refine foldlM_option_preserve
    (fun ps : PhraseStructure => ∀ e ∈ ps.symbols, e.2.rules = [])
    _ _ _ (fun e he => absurd he (List.not_mem_nil e)) ?_ psA hfold
  intro s x hx hs s2 hs2
  have h7 : (dictLookup tags x.1).bind
      (fun t => some (s.add_symbol t x.2.is_terminal)) = some s2 := hs2
  cases htx : dictLookup tags x.1 with
  | none =>
    rw [htx] at h7
    have h9 : (none : Option PhraseStructure) = some s2 := h7
    simp at h9
  | some tx =>
    rw [htx] at h7
    have h9 : some (s.add_symbol tx x.2.is_terminal) = some s2 := h7
    injection h9 with h9
    subst h9
    intro e he
    unfold PhraseStructure.add_symbol at he
    by_cases hp : (dictLookup s.symbols tx).isSome = true
    · rw [if_pos hp] at he
      exact hs e he
    · rw [if_neg hp] at he
      have he2 : e ∈ s.symbols ++ [(tx, ⟨tx, [], [], x.2.is_terminal⟩)] := he
      rcases List.mem_append.mp he2 with he3 | he3
      · exact hs e he3
      · rw [List.mem_singleton] at he3
        rw [he3]

/-- The record phase A stores under a declared symbol's tag carries that
symbol's terminal flag (tags are injective, so the tag pins the symbol). -/
theorem psA_flag {g2 : BNF} {psA : PhraseStructure}
    (hnodup : (dictKeys g2.symbols).Nodup)
    (hinjf : tagsValuesInjective (g2.set_unset_tags).tags)
    (hfold : g2.symbols.foldlM (BNF.create_ps_symbol_step (g2.set_unset_tags).tags)
      (⟨[]⟩ : PhraseStructure) = some psA)
    {a : PyVal} {ra : BNF_Symbol} (ha : dictLookup g2.symbols a = some ra)
    {t : Tag} (hta : dictLookup (g2.set_unset_tags).tags a = some t) :
    ∃ rec, dictLookup psA.symbols t = some rec ∧ rec.rules = [] ∧
      rec.is_terminal = ra.is_terminal := by
  obtain ⟨t', ht', hsome⟩ :=
    phaseA_coverage _ _ _ _ hfold (a, ra) (dictLookup_mem ha)
  have htt : t' = t := by
    have h2 : dictLookup (g2.set_unset_tags).tags a = some t' := ht'
    rw [hta] at h2
    injection h2 with h2
    exact h2.symm
  subst htt
  obtain ⟨rec, hrec⟩ := Option.isSome_iff_exists.mp hsome
  obtain ⟨hrules, k, rk, hksrc, hktag, hflag⟩ := phaseA_records hfold t' rec hrec
  have hka : k = a := hinjf (k, t') (dictLookup_mem hktag) (a, t') (dictLookup_mem hta) rfl
  subst hka
  have hra : rk = ra := nodup_entry_unique hnodup hksrc (dictLookup_mem ha)
  refine ⟨rec, hrec, hrules, ?_⟩
  rw [hflag, hra]

/-! ## The rule-registration phase of `create_phrase_structure` -/

theorem lookup_modify_flag (l : Dict Tag PhraseStructureSymbol) (k x : Tag)
    (f : PhraseStructureSymbol → PhraseStructureSymbol)
    (hf : ∀ b, (f b).is_terminal = b.is_terminal) :
    ((dictLookup (dictModify l k f) x).map (·.is_terminal)) =
      ((dictLookup l x).map (·.is_terminal)) := by
  by_cases hx : x = k
  · subst hx
    rw [dictLookup_modify_self]
    cases dictLookup l x with
    | none => rfl
    | some b => simp [hf]
  · rw [dictLookup_modify_ne _ _ hx]

/-- A parents-only update adds no rule anywhere. -/
theorem mem_rules_modify_parents {l : Dict Tag PhraseStructureSymbol} {k p : Tag}
    {e : Tag × PhraseStructureSymbol}
    (he : e ∈ dictModify l k (fun q => { q with parents := addElem q.parents p }))
    {r : List Tag} (hr : r ∈ e.2.rules) :
    ∃ e0 ∈ l, r ∈ e0.2.rules := by
  rcases dictModify_mem_cases he with he2 | ⟨w, hw, he2⟩
  · exact ⟨e, he2, hr⟩
  · refine ⟨(k, w), hw, ?_⟩
    rw [he2] at hr
    exact hr

/-- A rules update adds exactly the given rule. -/
theorem mem_rules_modify_addrule {l : Dict Tag PhraseStructureSymbol} {k : Tag}
    {nr : List Tag} {e : Tag × PhraseStructureSymbol}
    (he : e ∈ dictModify l k (fun q => { q with rules := addElem q.rules nr }))
    {r : List Tag} (hr : r ∈ e.2.rules) :
    (∃ e0 ∈ l, r ∈ e0.2.rules) ∨ r = nr := by
  rcases dictModify_mem_cases he with he2 | ⟨w, hw, he2⟩
  · exact Or.inl ⟨e, he2, hr⟩
  · rw [he2] at hr
    have hr2 : r ∈ addElem w.rules nr := hr
    rcases mem_addElem_iff.mp hr2 with hr3 | hr3
    · exact Or.inl ⟨(k, w), hw, hr3⟩
    · exact Or.inr hr3

theorem add_terminal_rule_flag (ps : PhraseStructure) (p t x : Tag) :
    ((dictLookup (ps.add_terminal_rule p t).symbols x).map (·.is_terminal)) =
      ((dictLookup ps.symbols x).map (·.is_terminal)) := by
  cases hp : dictLookup ps.symbols p with
  | none =>
    have h7 : ps.add_terminal_rule p t = ps := by
      unfold PhraseStructure.add_terminal_rule
      rw [hp]
    rw [h7]
  | some r =>
    by_cases hterm : r.is_terminal = true
    · have h7 : ps.add_terminal_rule p t = ps := by
        unfold PhraseStructure.add_terminal_rule
        rw [hp]
        simp only [hterm, if_true]
      rw [h7]
    · simp only [Bool.not_eq_true] at hterm
      have h7 : ps.add_terminal_rule p t = ⟨dictModify (dictModify ps.symbols p
          (fun q => { q with rules := addElem q.rules [t] })) t
          (fun q => { q with parents := addElem q.parents p })⟩ := by
        unfold PhraseStructure.add_terminal_rule
        rw [hp]
        simp only [hterm, Bool.false_eq_true, if_false]
      rw [h7]
      show ((dictLookup (dictModify (dictModify ps.symbols p
          (fun q => { q with rules := addElem q.rules [t] })) t
          (fun q => { q with parents := addElem q.parents p })) x).map (·.is_terminal)) =
        ((dictLookup ps.symbols x).map (·.is_terminal))
      rw [lookup_modify_flag _ t x
        (fun q => { q with parents := addElem q.parents p }) (fun b => rfl)]
      rw [lookup_modify_flag _ p x
        (fun q => { q with rules := addElem q.rules [t] }) (fun b => rfl)]

theorem add_intermediate_rule_flag (ps : PhraseStructure) (p t1 t2 x : Tag) :
    ((dictLookup (ps.add_intermediate_rule p t1 t2).symbols x).map (·.is_terminal)) =
      ((dictLookup ps.symbols x).map (·.is_terminal)) := by
  cases hp : dictLookup ps.symbols p with
  | none =>
    have h7 : ps.add_intermediate_rule p t1 t2 = ps := by
      unfold PhraseStructure.add_intermediate_rule
      rw [hp]
    rw [h7]
  | some r =>
    by_cases hterm : r.is_terminal = true
    · have h7 : ps.add_intermediate_rule p t1 t2 = ps := by
        unfold PhraseStructure.add_intermediate_rule
        rw [hp]
        simp only [hterm, if_true]
      rw [h7]
    · simp only [Bool.not_eq_true] at hterm
      have h7 : ps.add_intermediate_rule p t1 t2 = ⟨dictModify (dictModify (dictModify
          ps.symbols p (fun q => { q with rules := addElem q.rules [t1, t2] })) t1
          (fun q => { q with parents := addElem q.parents p })) t2
          (fun q => { q with parents := addElem q.parents p })⟩ := by
        unfold PhraseStructure.add_intermediate_rule
        rw [hp]
        simp only [hterm, Bool.false_eq_true, if_false]
      rw [h7]
      show ((dictLookup (dictModify (dictModify (dictModify
          ps.symbols p (fun q => { q with rules := addElem q.rules [t1, t2] })) t1
          (fun q => { q with parents := addElem q.parents p })) t2
          (fun q => { q with parents := addElem q.parents p })) x).map (·.is_terminal)) =
        ((dictLookup ps.symbols x).map (·.is_terminal))
      rw [lookup_modify_flag _ t2 x
        (fun q => { q with parents := addElem q.parents p }) (fun b => rfl)]
      rw [lookup_modify_flag _ t1 x
        (fun q => { q with parents := addElem q.parents p }) (fun b => rfl)]
      rw [lookup_modify_flag _ p x
        (fun q => { q with rules := addElem q.rules [t1, t2] }) (fun b => rfl)]

theorem add_terminal_rule_mem_rules {ps : PhraseStructure} {p t : Tag}
    {e : Tag × PhraseStructureSymbol} (he : e ∈ (ps.add_terminal_rule p t).symbols)
    {r : List Tag} (hr : r ∈ e.2.rules) :
    (∃ e0 ∈ ps.symbols, r ∈ e0.2.rules) ∨ r = [t] := by
  cases hp : dictLookup ps.symbols p with
  | none =>
    have h7 : ps.add_terminal_rule p t = ps := by
      unfold PhraseStructure.add_terminal_rule
      rw [hp]
    rw [h7] at he
    exact Or.inl ⟨e, he, hr⟩
  | some rp =>
    by_cases hterm : rp.is_terminal = true
    · have h7 : ps.add_terminal_rule p t = ps := by
        unfold PhraseStructure.add_terminal_rule
        rw [hp]
        simp only [hterm, if_true]
      rw [h7] at he
      exact Or.inl ⟨e, he, hr⟩
    · simp only [Bool.not_eq_true] at hterm
      have h7 : ps.add_terminal_rule p t = ⟨dictModify (dictModify ps.symbols p
          (fun q => { q with rules := addElem q.rules [t] })) t
          (fun q => { q with parents := addElem q.parents p })⟩ := by
        unfold PhraseStructure.add_terminal_rule
        rw [hp]
        simp only [hterm, Bool.false_eq_true, if_false]
      rw [h7] at he
      have he2 : e ∈ dictModify (dictModify ps.symbols p
          (fun q => { q with rules := addElem q.rules [t] })) t
          (fun q => { q with parents := addElem q.parents p }) := he
      obtain ⟨e0, he0, hr0⟩ := mem_rules_modify_parents he2 hr
      exact mem_rules_modify_addrule he0 hr0

theorem add_intermediate_rule_mem_rules {ps : PhraseStructure} {p t1 t2 : Tag}
    {e : Tag × PhraseStructureSymbol}
    (he : e ∈ (ps.add_intermediate_rule p t1 t2).symbols)
    {r : List Tag} (hr : r ∈ e.2.rules) :
    (∃ e0 ∈ ps.symbols, r ∈ e0.2.rules) ∨ r = [t1, t2] := by
  cases hp : dictLookup ps.symbols p with
  | none =>
    have h7 : ps.add_intermediate_rule p t1 t2 = ps := by
      unfold PhraseStructure.add_intermediate_rule
      rw [hp]
    rw [h7] at he
    exact Or.inl ⟨e, he, hr⟩
  | some rp =>
    by_cases hterm : rp.is_terminal = true
    · have h7 : ps.add_intermediate_rule p t1 t2 = ps := by
        unfold PhraseStructure.add_intermediate_rule
        rw [hp]
        simp only [hterm, if_true]
      rw [h7] at he
      exact Or.inl ⟨e, he, hr⟩
    · simp only [Bool.not_eq_true] at hterm
      have h7 : ps.add_intermediate_rule p t1 t2 = ⟨dictModify (dictModify (dictModify
          ps.symbols p (fun q => { q with rules := addElem q.rules [t1, t2] })) t1
          (fun q => { q with parents := addElem q.parents p })) t2
          (fun q => { q with parents := addElem q.parents p })⟩ := by
        unfold PhraseStructure.add_intermediate_rule
        rw [hp]
        simp only [hterm, Bool.false_eq_true, if_false]
      rw [h7] at he
      have he2 : e ∈ dictModify (dictModify (dictModify
          ps.symbols p (fun q => { q with rules := addElem q.rules [t1, t2] })) t1
          (fun q => { q with parents := addElem q.parents p })) t2
          (fun q => { q with parents := addElem q.parents p }) := he
      obtain ⟨e1, he1, hr1⟩ := mem_rules_modify_parents he2 hr
      obtain ⟨e0, he0, hr0⟩ := mem_rules_modify_parents he1 hr1
      exact mem_rules_modify_addrule he0 hr0

/-- Whether a tag is terminal only depends on the terminal-flag map of the
table. -/
theorem tagTerminal_congr {ps1 ps2 : PhraseStructure}
    (h : ∀ x, (dictLookup ps1.symbols x).map (·.is_terminal) =
      (dictLookup ps2.symbols x).map (·.is_terminal)) (t : Tag) :
    tagTerminal ps1 t = tagTerminal ps2 t := by
  unfold tagTerminal
  have h2 := h t
  cases h1 : dictLookup ps1.symbols t with
  | none =>
    cases h3 : dictLookup ps2.symbols t with
    | none => rfl
    | some r2 => rw [h1, h3] at h2; simp at h2
  | some r1 =>
    cases h3 : dictLookup ps2.symbols t with
    | none => rw [h1, h3] at h2; simp at h2
    | some r2 =>
      rw [h1, h3] at h2
      simp only [Option.map_some'] at h2
      injection h2 with h2

theorem tagNonTerminal_congr {ps1 ps2 : PhraseStructure}
    (h : ∀ x, (dictLookup ps1.symbols x).map (·.is_terminal) =
      (dictLookup ps2.symbols x).map (·.is_terminal)) (t : Tag) :
    tagNonTerminal ps1 t = tagNonTerminal ps2 t := by
  unfold tagNonTerminal
  have h2 := h t
  cases h1 : dictLookup ps1.symbols t with
  | none =>
    cases h3 : dictLookup ps2.symbols t with
    | none => rfl
    | some r2 => rw [h1, h3] at h2; simp at h2
  | some r1 =>
    cases h3 : dictLookup ps2.symbols t with
    | none => rw [h1, h3] at h2; simp at h2
    | some r2 =>
      rw [h1, h3] at h2
      simp only [Option.map_some'] at h2
      injection h2 with h2
      show (!r1.is_terminal) = (!r2.is_terminal)
      rw [h2]

/-- A true `flagOf` means the symbol is declared terminal. -/
theorem flagOf_true {g : BNF} {a : PyVal} (h : g.flagOf a = true) :
    ∃ ra, dictLookup g.symbols a = some ra ∧ ra.is_terminal = true := by
  unfold BNF.flagOf at h
  cases hl : dictLookup g.symbols a with
  | none => rw [hl] at h; simp at h
  | some ra =>
    rw [hl] at h
    simp at h
    exact ⟨ra, rfl, h⟩

/-- A false `flagOf` on a declared symbol means the record is
non-terminal. -/
theorem flagOf_false_declared {g : BNF} {a : PyVal} {ra : BNF_Symbol}
    (hl : dictLookup g.symbols a = some ra) (h : g.flagOf a = false) :
    ra.is_terminal = false := by
  unfold BNF.flagOf at h
  rw [hl] at h
  simpa using h

/-- `check_if_cnf` certifies every stored rule. -/
theorem check_if_cnf_rule {g : BNF} (hc : g.check_if_cnf = true)
    {e : PyVal × BNF_Symbol} (he : e ∈ g.symbols) {r : Rule} (hr : r ∈ e.2.rules) :
    g.ruleIsCNF r = true := by
  unfold BNF.check_if_cnf at hc
  rw [List.all_eq_true] at hc
  have h2 : e.2.rules.all (fun rule => g.ruleIsCNF rule) = true := hc e he
  exact List.all_eq_true.mp h2 r hr

/-- When the conversion loop returns, it does so from a state in CNF whose
frame facts still hold, and the returned structure is created from that
state. -/
theorem convert_to_cnf_exit {T : Dict PyVal Tag} :
    ∀ (fuel : Nat) (g : BNF) (ps : PhraseStructure),
      BNF.convert_to_cnf fuel g = some ps → stateWF T g →
      ∃ g2, stateWF T g2 ∧ g2.check_if_cnf = true ∧
        g2.create_phrase_structure = some ps := by
  intro fuel
  induction fuel with
  | zero => intro g ps hG _; simp [BNF.convert_to_cnf] at hG
  | succ f ih =>
    intro g ps hG hWF
    simp only [BNF.convert_to_cnf] at hG
    by_cases hc : g.check_if_cnf = true
    · rw [if_pos hc] at hG
      exact ⟨g, hWF, hc, hG⟩
    · rw [if_neg hc] at hG
      exact ih _ _ hG (stateWF_pass hWF)

/-! ## Claim theorem: shape of the conversion output (C5 amended) -/

/-- C5 amended: provided the grammar's symbol keys are pairwise distinct,
its start symbol is declared, every caller-tagged symbol is declared, and
the caller-assigned tags are value-injective and never the sentinel `None`
(the counterexample `convert_to_cnf_shape_violation_with_duplicate_tags`
shows the claim fails when two symbols share a caller tag), whenever
`convert_to_cnf` returns a `PhraseStructure`, every rule in it has arity 1
with a terminal target or arity 2 with two non-terminal targets.  The
`PhraseStructure` side is modelled from the spec, as its source file is not
in `src/`. -/
theorem convert_to_cnf_output_shape (g : BNF) (fuel : Nat) (ps : PhraseStructure)
    (hG : BNF.convert_to_cnf fuel g = some ps)
    (hnodup : (dictKeys g.symbols).Nodup) (hstart : startDeclared g)
    (htag : tagDomainDeclared g) (hinj : tagsValuesInjective g.tags)
    (hnone : noneNotTagValue g.tags) : cnfShape ps = true := by
  obtain ⟨g2, ⟨hT, htd2, hsd2, hnd2⟩, hcnf, hcreate⟩ :=
    convert_to_cnf_exit fuel g ps hG ⟨rfl, htag, hstart, hnodup⟩
  have hinj2 : tagsValuesInjective g2.tags := by rw [hT]; exact hinj
  have hnone2 : noneNotTagValue g2.tags := by rw [hT]; exact hnone
  have hinjf : tagsValuesInjective (g2.set_unset_tags).tags :=
    set_unset_tags_inj hinj2 hnone2
  have hcreate2 : (g2.symbols.foldlM
      (BNF.create_ps_symbol_step (g2.set_unset_tags).tags)
      (⟨[]⟩ : PhraseStructure)).bind
      (fun psA => g2.symbols.foldlM
        (BNF.create_ps_rules_step (g2.set_unset_tags).tags) psA) = some ps := hcreate
  cases hA : g2.symbols.foldlM (BNF.create_ps_symbol_step (g2.set_unset_tags).tags)
      (⟨[]⟩ : PhraseStructure) with
  | none =>
    rw [hA] at hcreate2
    have h9 : (none : Option PhraseStructure) = some ps := hcreate2
    simp at h9
  | some psA =>
    rw [hA] at hcreate2
    have hB : g2.symbols.foldlM
        (BNF.create_ps_rules_step (g2.set_unset_tags).tags) psA = some ps := hcreate2
    have hPB : (∀ x, (dictLookup ps.symbols x).map (·.is_terminal) =
        (dictLookup psA.symbols x).map (·.is_terminal)) ∧
        (∀ e ∈ ps.symbols, ∀ r ∈ e.2.rules,
          (∃ t, r = [t] ∧ tagTerminal psA t = true) ∨
          (∃ t u, r = [t, u] ∧ tagNonTerminal psA t = true ∧
            tagNonTerminal psA u = true)) := by
      refine foldlM_option_preserve (fun ps' : PhraseStructure =>
        (∀ x, (dictLookup ps'.symbols x).map (·.is_terminal) =
          (dictLookup psA.symbols x).map (·.is_terminal)) ∧
        (∀ e ∈ ps'.symbols, ∀ r ∈ e.2.rules,
          (∃ t, r = [t] ∧ tagTerminal psA t = true) ∨
          (∃ t u, r = [t, u] ∧ tagNonTerminal psA t = true ∧
            tagNonTerminal psA u = true)))
        _ _ psA ⟨fun x => rfl, ?_⟩ ?_ ps hB
      · intro e he r hr
        rw [phaseA_rules_empty hA e he] at hr
        simp at hr
      · intro s e he hs s2 hs2
        have h7 : (dictLookup (g2.set_unset_tags).tags e.1).bind
            (fun t => e.2.rules.foldlM
              (BNF.create_ps_rule_step (g2.set_unset_tags).tags t) s) = some s2 := hs2
        cases hte : dictLookup (g2.set_unset_tags).tags e.1 with
        | none =>
          rw [hte] at h7
          have h9 : (none : Option PhraseStructure) = some s2 := h7
          simp at h9
        | some te =>
          rw [hte] at h7
          have hinner : e.2.rules.foldlM
              (BNF.create_ps_rule_step (g2.set_unset_tags).tags te) s = some s2 := h7
          refine foldlM_option_preserve (fun ps' : PhraseStructure =>
            (∀ x, (dictLookup ps'.symbols x).map (·.is_terminal) =
              (dictLookup psA.symbols x).map (·.is_terminal)) ∧
            (∀ e ∈ ps'.symbols, ∀ r ∈ e.2.rules,
              (∃ t, r = [t] ∧ tagTerminal psA t = true) ∨
              (∃ t u, r = [t, u] ∧ tagNonTerminal psA t = true ∧
                tagNonTerminal psA u = true)))
            _ _ s hs ?_ s2 hinner
          intro s3 r hrr hs3 s4 hs4
          have hrule : g2.ruleIsCNF r = true := check_if_cnf_rule hcnf he hrr
          rcases r with _ | ⟨a, _ | ⟨b, _ | ⟨c, rest⟩⟩⟩
          · have h8 : some s3 = some s4 := hs4
            injection h8 with h8
            rw [← h8]
            exact hs3
          · have h8 : (dictLookup (g2.set_unset_tags).tags a).bind
                (fun ta => some (s3.add_terminal_rule te ta)) = some s4 := hs4
            cases hta : dictLookup (g2.set_unset_tags).tags a with
            | none =>
              rw [hta] at h8
              have h9 : (none : Option PhraseStructure) = some s4 := h8
              simp at h9
            | some ta =>
              rw [hta] at h8
              have h9 : some (s3.add_terminal_rule te ta) = some s4 := h8
              injection h9 with h9
              subst h9
              have hflag : g2.flagOf a = true := hrule
              obtain ⟨ra, hra, hratrue⟩ := flagOf_true hflag
              obtain ⟨reca, hreca, _, hrecaflag⟩ := psA_flag hnd2 hinjf hA hra hta
              have hterm : tagTerminal psA ta = true := by
                simp [tagTerminal, hreca, hrecaflag, hratrue]
              refine ⟨?_, ?_⟩
              · intro x
                rw [add_terminal_rule_flag]
                exact hs3.1 x
              · intro e2 he2 r2 hr2
                rcases add_terminal_rule_mem_rules he2 hr2 with ⟨e0, he0, hr0⟩ | hr0
                · exact hs3.2 e0 he0 r2 hr0
                · rw [hr0]
                  exact Or.inl ⟨ta, rfl, hterm⟩
          · have h8 : (dictLookup (g2.set_unset_tags).tags a).bind
                (fun ta => (dictLookup (g2.set_unset_tags).tags b).bind
                  (fun tb => some (s3.add_intermediate_rule te ta tb))) = some s4 := hs4
            cases hta : dictLookup (g2.set_unset_tags).tags a with
            | none =>
              rw [hta] at h8
              have h9 : (none : Option PhraseStructure) = some s4 := h8
              simp at h9
            | some ta =>
              rw [hta] at h8
              cases htb : dictLookup (g2.set_unset_tags).tags b with
              | none =>
                rw [htb] at h8
                have h9 : (none : Option PhraseStructure) = some s4 := h8
                simp at h9
              | some tb =>
                rw [htb] at h8
                have h9 : some (s3.add_intermediate_rule te ta tb) = some s4 := h8
                injection h9 with h9
                subst h9
                have h10 : (!g2.flagOf a && !g2.flagOf b) = true := hrule
                simp only [Bool.and_eq_true, Bool.not_eq_true'] at h10
                obtain ⟨ra, hra⟩ := Option.isSome_iff_exists.mp
                  (tagged_symbol_declared htd2 hsd2 hinj2 hnone2 hta)
                obtain ⟨rb, hrb⟩ := Option.isSome_iff_exists.mp
                  (tagged_symbol_declared htd2 hsd2 hinj2 hnone2 htb)
                have hfa2 : ra.is_terminal = false := flagOf_false_declared hra h10.1
                have hfb2 : rb.is_terminal = false := flagOf_false_declared hrb h10.2
                obtain ⟨reca, hreca, _, hrecaflag⟩ := psA_flag hnd2 hinjf hA hra hta
                obtain ⟨recb, hrecb, _, hrecbflag⟩ := psA_flag hnd2 hinjf hA hrb htb
                have hnta : tagNonTerminal psA ta = true := by
                  simp [tagNonTerminal, hreca, hrecaflag, hfa2]
                have hntb : tagNonTerminal psA tb = true := by
                  simp [tagNonTerminal, hrecb, hrecbflag, hfb2]
                refine ⟨?_, ?_⟩
                · intro x
                  rw [add_intermediate_rule_flag]
                  exact hs3.1 x
                · intro e2 he2 r2 hr2
                  rcases add_intermediate_rule_mem_rules he2 hr2
                    with ⟨e0, he0, hr0⟩ | hr0
                  · exact hs3.2 e0 he0 r2 hr0
                  · rw [hr0]
                    exact Or.inr ⟨ta, tb, rfl, hnta, hntb⟩
          · have h8 : some s3 = some s4 := hs4
            injection h8 with h8
            rw [← h8]
            exact hs3
    unfold cnfShape
    simp only [List.all_eq_true]
    intro e he r hr
    rcases hPB.2 e he r hr with ⟨t, rfl, ht⟩ | ⟨t, u, rfl, ht, hu⟩
    · show tagTerminal ps t = true
      rw [tagTerminal_congr hPB.1 t]
      exact ht
    · show (tagNonTerminal ps t && tagNonTerminal ps u) = true
      simp [tagNonTerminal_congr hPB.1 t, tagNonTerminal_congr hPB.1 u, ht, hu]

/-- Witness for C5 amended: the conversion output of the concrete CNF
grammar `0 → A B, A → a, B → b` has the CNF shape, obtained by applying the
theorem at fuel 1 with every hypothesis discharged concretely. -/
theorem convert_to_cnf_output_shape_witness :
    cnfShape ((BNF.convert_to_cnf 1 cnfGrammar).getD ⟨[]⟩) = true := by
  have htags : cnfGrammar.tags = [] := by decide
  refine convert_to_cnf_output_shape cnfGrammar 1 _ ?_ ?_ ?_ ?_ ?_ ?_
  · decide
  · decide
  · show (dictLookup cnfGrammar.symbols (PyVal.i cnfGrammar.start_symbol)).isSome = true
    decide
  · intro e he
    rw [htags] at he
    simp at he
  · intro e1 he1
    rw [htags] at he1
    simp at he1
  · intro e he
    rw [htags] at he
    simp at he

end CFGCYK
